import Mathlib

/-!
Shallow embedding of the core crawl data structures of the `quality_crawling`
repository, together with theorems settling the frozen claims about them.

Source files embedded here:
 * `src/repo/utils/priorityqueue.py` (`PQueueHeap`, `PQueuePriorityQueue`)
 * `src/repo/crawler/frontier.py` (`QualityFrontierManager` in oracle mode,
   plus the Random/BFS/DFS frontier managers)
 * `src/repo/crawler/parser.py` (`Parser.clean_links`)
 * `src/repo/crawler/seen.py` (`BitArraySeenURLTester`)
 * `src/repo/crawler/fetcher.py` / `src/repo/utils/datasetIR.py`
   (download-log writer and reader)
 * `src/repo/utils/utils.py` (`navigate_to_id`, `read_offsets`,
   `random_read_json_gz`)

Modelling conventions:
 * Python floats (priorities, quality scores) are modelled as `ℚ`.
 * URLs / items are an abstract linearly ordered type `α` (Python compares
   URL strings lexicographically when heap priorities tie); witnesses use `ℕ`.
 * A Python `heapq` array (also the one inside `queue.PriorityQueue`) is
   modelled by the list of its entries: `heappush` adds an entry and
   `heappop` removes the lexicographically least entry, which is exactly the
   observable behaviour of the binary-heap array.  The physical array layout
   produced by sifting is not represented.
 * Python exceptions (assertion failures, `KeyError`, `IndexError`,
   attribute errors on `None`) are modelled with `Option`/`Except`: a crash
   is `none`/`.error`.
-/

namespace QualityCrawling

variable {α : Type*} [LinearOrder α]

/-- Non-strict lexicographic order on heap entries `(internal_priority, item)`,
mirroring Python tuple comparison used by `heapq`/`queue.PriorityQueue`. -/
def entryLe (a b : ℚ × α) : Prop :=
  a.1 < b.1 ∨ (a.1 = b.1 ∧ a.2 ≤ b.2)

instance (a b : ℚ × α) : Decidable (entryLe a b) :=
  inferInstanceAs (Decidable (a.1 < b.1 ∨ (a.1 = b.1 ∧ a.2 ≤ b.2)))

theorem entryLe_refl (a : ℚ × α) : entryLe a a := Or.inr ⟨rfl, le_refl _⟩

theorem entryLe_total (a b : ℚ × α) : entryLe a b ∨ entryLe b a := by
  rcases lt_trichotomy a.1 b.1 with h | h | h
  · exact Or.inl (Or.inl h)
  · rcases le_total a.2 b.2 with h2 | h2
    · exact Or.inl (Or.inr ⟨h, h2⟩)
    · exact Or.inr (Or.inr ⟨h.symm, h2⟩)
  · exact Or.inr (Or.inl h)

theorem entryLe_trans {a b c : ℚ × α} (hab : entryLe a b) (hbc : entryLe b c) :
    entryLe a c := by
  rcases hab with h1 | ⟨h1, h1b⟩ <;> rcases hbc with h2 | ⟨h2, h2b⟩
  · exact Or.inl (h1.trans h2)
  · exact Or.inl (h2 ▸ h1)
  · exact Or.inl (h1 ▸ h2)
  · exact Or.inr ⟨h1.trans h2, h1b.trans h2b⟩

theorem entryLe_of_not_le {a b : ℚ × α} (h : ¬ entryLe a b) : entryLe b a :=
  (entryLe_total a b).resolve_left h

/-- Remove the lexicographically least entry from the heap: the observable
effect of `heapq.heappop` (and of `queue.PriorityQueue.get`) on the stored
multiset of entries.  Returns `none` on an empty heap. -/
def heapPopMin : List (ℚ × α) → Option ((ℚ × α) × List (ℚ × α))
  | [] => none
  | x :: xs =>
    match heapPopMin xs with
    | none => some (x, [])
    | some (m, rest) => if entryLe x m then some (x, xs) else some (m, x :: rest)

theorem heapPopMin_eq_none_iff {l : List (ℚ × α)} :
    heapPopMin l = none ↔ l = [] := by
  cases l with
  | nil => simp [heapPopMin]
  | cons x xs =>
    simp only [heapPopMin]
    cases h : heapPopMin xs with
    | none => simp
    | some p =>
      obtain ⟨m, rest⟩ := p
      by_cases hle : entryLe x m <;> simp [hle]

theorem heapPopMin_perm {l : List (ℚ × α)} {m : ℚ × α} {rest : List (ℚ × α)}
    (h : heapPopMin l = some (m, rest)) : l.Perm (m :: rest) := by
  induction l generalizing m rest with
  | nil => simp [heapPopMin] at h
  | cons x xs ih =>
    simp only [heapPopMin] at h
    cases hx : heapPopMin xs with
    | none =>
      rw [hx] at h
      simp only [Option.some.injEq, Prod.mk.injEq] at h
      obtain ⟨rfl, rfl⟩ := h
      rw [heapPopMin_eq_none_iff.mp hx]
    | some p =>
      obtain ⟨m0, rest0⟩ := p
      rw [hx] at h
      by_cases hle : entryLe x m0
      · simp only [hle, if_true, Option.some.injEq, Prod.mk.injEq] at h
        obtain ⟨rfl, rfl⟩ := h
        exact List.Perm.refl _
      · simp only [hle, if_false, Option.some.injEq, Prod.mk.injEq] at h
        obtain ⟨rfl, rfl⟩ := h
        exact ((ih hx).cons x).trans (List.Perm.swap m0 x rest0)

theorem heapPopMin_min {l : List (ℚ × α)} {m : ℚ × α} {rest : List (ℚ × α)}
    (h : heapPopMin l = some (m, rest)) : ∀ x ∈ l, entryLe m x := by
  induction l generalizing m rest with
  | nil => simp [heapPopMin] at h
  | cons x xs ih =>
    simp only [heapPopMin] at h
    cases hx : heapPopMin xs with
    | none =>
      rw [hx] at h
      simp only [Option.some.injEq, Prod.mk.injEq] at h
      obtain ⟨rfl, rfl⟩ := h
      have hnil := heapPopMin_eq_none_iff.mp hx
      subst hnil
      intro y hy
      simp at hy
      simp [hy, entryLe_refl]
    | some p =>
      obtain ⟨m0, rest0⟩ := p
      rw [hx] at h
      by_cases hle : entryLe x m0
      · simp only [hle, if_true, Option.some.injEq, Prod.mk.injEq] at h
        obtain ⟨rfl, rfl⟩ := h
        intro y hy
        rcases List.mem_cons.mp hy with rfl | hy
        · exact entryLe_refl _
        · exact entryLe_trans hle (ih hx _ hy)
      · simp only [hle, if_false, Option.some.injEq, Prod.mk.injEq] at h
        obtain ⟨rfl, rfl⟩ := h
        intro y hy
        rcases List.mem_cons.mp hy with rfl | hy
        · exact entryLe_of_not_le hle
        · exact ih hx _ hy

theorem heapPopMin_length {l : List (ℚ × α)} {m : ℚ × α} {rest : List (ℚ × α)}
    (h : heapPopMin l = some (m, rest)) : rest.length + 1 = l.length := by
  have := (heapPopMin_perm h).length_eq
  simpa using this.symm

/-- Repeatedly pop the minimum until the heap is empty (fuelled; the fuel is
always at least the heap size where it is used). -/
def heapDrainAux : ℕ → List (ℚ × α) → List (ℚ × α)
  | 0, _ => []
  | n + 1, l =>
    match heapPopMin l with
    | none => []
    | some (m, rest) => m :: heapDrainAux n rest

/-- The full pop sequence of a heap: the entries in the order `get` returns
them when called until exhaustion. -/
def heapDrain (l : List (ℚ × α)) : List (ℚ × α) :=
  heapDrainAux l.length l

theorem heapDrainAux_perm :
    ∀ (n : ℕ) (l : List (ℚ × α)), l.length ≤ n → (heapDrainAux n l).Perm l := by
  intro n
  induction n with
  | zero =>
    intro l hl
    rw [Nat.le_zero] at hl
    rw [List.length_eq_zero] at hl
    subst hl
    simp [heapDrainAux]
  | succ n ih =>
    intro l hl
    cases hpop : heapPopMin (α := α) l with
    | none =>
      rw [heapPopMin_eq_none_iff.mp hpop]
      simp [heapDrainAux, heapPopMin]
    | some p =>
      obtain ⟨m, rest⟩ := p
      have hlen := heapPopMin_length hpop
      simp only [heapDrainAux, hpop]
      have hrest : rest.length ≤ n := by omega
      exact ((ih rest hrest).cons m).trans (heapPopMin_perm hpop).symm

theorem heapDrain_perm (l : List (ℚ × α)) : (heapDrain l).Perm l :=
  heapDrainAux_perm l.length l le_rfl

theorem heapDrainAux_sorted :
    ∀ (n : ℕ) (l : List (ℚ × α)), l.length ≤ n →
      (heapDrainAux n l).Pairwise entryLe := by
  intro n
  induction n with
  | zero => intro l _; simp [heapDrainAux]
  | succ n ih =>
    intro l hl
    cases hpop : heapPopMin (α := α) l with
    | none => simp [heapDrainAux, hpop]
    | some p =>
      obtain ⟨m, rest⟩ := p
      have hlen := heapPopMin_length hpop
      simp only [heapDrainAux, hpop]
      refine List.Pairwise.cons ?_ (ih rest (by omega))
      intro y hy
      have hmem : y ∈ rest := ((heapDrainAux_perm n rest (by omega)).mem_iff).mp hy
      exact heapPopMin_min hpop y ((heapPopMin_perm hpop).mem_iff.mpr (by simp [hmem]))

theorem heapDrain_sorted (l : List (ℚ × α)) : (heapDrain l).Pairwise entryLe :=
  heapDrainAux_sorted l.length l le_rfl

/-! ### `PQueueHeap` (`src/repo/utils/priorityqueue.py`, lines 64-126)

A max-heap realised on `heapq` through priority negation:
`_internal_priority(p) = -p`, `_external_priority(p) = -p`.  The state is the
`heapq` array `self.queue`, modelled as the list of its entries. -/

/-- `PQueueHeap.put`: `heapq.heappush(self.queue, (-priority, item))`. -/
def pqheap_put (q : List (ℚ × α)) (item : α) (priority : ℚ) : List (ℚ × α) :=
  (-priority, item) :: q

/-- Scan loop of `PQueueHeap.update`: walk the array in order; at the first
entry holding `item`, replace its priority by the new one when the new
external priority is strictly higher, then stop (`break`).  The final
`heapq.heapify` only rearranges the array and is invisible in the multiset
model. -/
def pqheap_update (item : α) (priority : ℚ) : List (ℚ × α) → List (ℚ × α)
  | [] => []
  | (ip, it) :: rest =>
    if it = item then
      (if -ip < priority then (-priority, item) :: rest else (ip, it) :: rest)
    else (ip, it) :: pqheap_update item priority rest

/-- `PQueueHeap.get`: `heapq.heappop` plus the `(item[1], item[0])` projection
(the returned priority is the stored internal one); `none` models the
`KeyError` raised on an empty queue. -/
def pqheap_get (q : List (ℚ × α)) : Option ((α × ℚ) × List (ℚ × α)) :=
  (heapPopMin q).map (fun p => ((p.1.2, p.1.1), p.2))

/-- `PQueueHeap.enqueued`: `len(self.queue)`. -/
def pqheap_enqueued (q : List (ℚ × α)) : ℕ := q.length

theorem pqheap_update_length (item : α) (priority : ℚ) :
    ∀ q : List (ℚ × α), (pqheap_update item priority q).length = q.length := by
  intro q
  induction q with
  | nil => rfl
  | cons e rest ih =>
    obtain ⟨ip, it⟩ := e
    simp only [pqheap_update]
    by_cases h1 : it = item
    · by_cases h2 : -ip < priority <;> simp [h1, h2]
    · simp [h1, ih]

/-! ### `PQueuePriorityQueue` (`src/repo/utils/priorityqueue.py`, lines 128-274)

Lazy-deletion max-queue: a `queue.PriorityQueue` of `(-priority, item)` pairs
plus the dict `self.deleted : item -> {"priority": internal, "count": n}`,
and the explicit counters `num_enqueued` / `num_deleted`.  The dict is
modelled as an association list; counts are natural numbers (stored counts
are never negative: `get` deletes the entry instead of storing `-1`). -/

structure PQPQState (α : Type*) where
  queue : List (ℚ × α)
  deleted : List (α × ℚ × ℕ)
  num_enqueued : ℤ
  num_deleted : ℤ
  deriving DecidableEq

/-- Dict lookup `self.deleted.get(item)` / `item in self.deleted`. -/
def alookup : List (α × ℚ × ℕ) → α → Option (ℚ × ℕ)
  | [], _ => none
  | (k, v) :: rest, item => if k = item then some v else alookup rest item

/-- Dict assignment `self.deleted[item] = v` (replaces in place, else adds). -/
def aset : List (α × ℚ × ℕ) → α → ℚ × ℕ → List (α × ℚ × ℕ)
  | [], item, v => [(item, v)]
  | (k, w) :: rest, item, v =>
    if k = item then (k, v) :: rest else (k, w) :: aset rest item v

/-- Dict deletion `del self.deleted[item]`. -/
def aerase : List (α × ℚ × ℕ) → α → List (α × ℚ × ℕ)
  | [], _ => []
  | (k, w) :: rest, item => if k = item then rest else (k, w) :: aerase rest item

/-- `PQueuePriorityQueue.MAX_DELETED_THRESHOLD = 10_000_000`. -/
def MAX_DELETED_THRESHOLD : ℤ := 10000000

/-- Fresh `PQueuePriorityQueue()` (the constructor's self-check trivially
passes: `0 = 0 - 0`). -/
def pqpq_empty : PQPQState α :=
  { queue := [], deleted := [], num_enqueued := 0, num_deleted := 0 }

/-- `PQueuePriorityQueue.put`: crashes (`assert False`) when the item is
already tracked in `self.deleted`; otherwise pushes `(-priority, item)`,
records `{"priority": -priority, "count": 0}` and bumps `num_enqueued`. -/
def pqpq_put (s : PQPQState α) (item : α) (priority : ℚ) : Option (PQPQState α) :=
  match alookup s.deleted item with
  | some _ => none
  | none =>
    some { queue := (-priority, item) :: s.queue,
           deleted := aset s.deleted item (-priority, 0),
           num_enqueued := s.num_enqueued + 1,
           num_deleted := s.num_deleted }

/-- `PQueuePriorityQueue._mark_deleted`: reads the tracked entry (crash when
absent: `.get(item).values()` on `None`); returns unchanged when
`priority >= external(old)`; otherwise stores `(-priority, count+1)` and bumps
`num_deleted`. -/
def pqpq_mark_deleted (s : PQPQState α) (item : α) (priority : ℚ) :
    Option (PQPQState α) :=
  match alookup s.deleted item with
  | none => none
  | some (oldip, oldc) =>
    if -oldip ≤ priority then some s
    else
      some { s with deleted := aset s.deleted item (-priority, oldc + 1),
                    num_deleted := s.num_deleted + 1 }

/-- The `while not self.queue.empty()` loop of `PQueuePriorityQueue.get`.
Each iteration pops the heap minimum, rewrites the tracked entry
(`count - 1 < 0` deletes it), and either discards the popped pair as stale
(`priority > min_del_priority`) or returns it.  The fuel is the heap size, so
fuel `0` is exactly the empty-queue `KeyError`; `none` also models the crash
on an untracked popped item. -/
def pqpq_getAux : ℕ → PQPQState α → Option (α × ℚ × PQPQState α)
  | 0, _ => none
  | fuel + 1, s =>
    match heapPopMin s.queue with
    | none => none
    | some ((ip, item), rest) =>
      let priority := -ip
      match alookup s.deleted item with
      | none => none
      | some (mip, cnt) =>
        let minDel := -mip
        let deleted' :=
          if cnt = 0 then aerase s.deleted item
          else aset s.deleted item (mip, cnt - 1)
        if minDel < priority then
          pqpq_getAux fuel
            { s with queue := rest, deleted := deleted',
                     num_deleted := s.num_deleted - 1 }
        else
          some (item, priority,
            { s with queue := rest, deleted := deleted',
                     num_enqueued := s.num_enqueued - 1 })

/-- `PQueuePriorityQueue.get`. -/
def pqpq_get (s : PQPQState α) : Option (α × ℚ × PQPQState α) :=
  pqpq_getAux s.queue.length s

/-- Drain loop of `PQueuePriorityQueue._cleanup_deleted`: repeatedly `get`
while the physical queue is non-empty, accumulating the new queue entries and
the new dict (`count` reset to 0).  Fuel is the physical queue size; each
`get` removes at least one physical entry. -/
def pqpq_cleanupLoop :
    ℕ → PQPQState α → List (ℚ × α) → List (α × ℚ × ℕ) →
      Option (List (ℚ × α) × List (α × ℚ × ℕ))
  | 0, s, accQ, accD => if s.queue.isEmpty then some (accQ, accD) else none
  | fuel + 1, s, accQ, accD =>
    if s.queue.isEmpty then some (accQ, accD)
    else
      match pqpq_get s with
      | none => none
      | some (item, priority, s1) =>
        pqpq_cleanupLoop fuel s1 (accQ ++ [(-priority, item)])
          (aset accD item (-priority, 0))

/-- `PQueuePriorityQueue._cleanup_deleted`: rebuild the queue from the live
items, reset every count and `num_deleted`, restore `num_enqueued`. -/
def pqpq_cleanup (s : PQPQState α) : Option (PQPQState α) :=
  (pqpq_cleanupLoop s.queue.length s [] []).map fun acc =>
    { queue := acc.1, deleted := acc.2,
      num_enqueued := s.num_enqueued, num_deleted := 0 }

/-- `PQueuePriorityQueue.update`: `False` when the item is untracked.
Otherwise, when `external(old_priority) > priority` (the stored best external
priority is strictly GREATER than the candidate), mark the old entry deleted
and push `(-priority, item)`; then run `_cleanup_deleted` when `num_deleted`
exceeds the threshold, and return `True`. -/
def pqpq_update (s : PQPQState α) (item : α) (priority : ℚ) :
    Option (Bool × PQPQState α) :=
  match alookup s.deleted item with
  | none => some (false, s)
  | some (oldip, _) =>
    match (if priority < -oldip then
        (pqpq_mark_deleted s item priority).map
          (fun s1 => { s1 with queue := (-priority, item) :: s1.queue })
      else some s) with
    | none => none
    | some s1 =>
      if MAX_DELETED_THRESHOLD < s1.num_deleted then
        (pqpq_cleanup s1).map fun s2 => (true, s2)
      else some (true, s1)

/-- `PQueuePriorityQueue.enqueued`: the explicit `num_enqueued` counter. -/
def pqpq_enqueued (s : PQPQState α) : ℤ := s.num_enqueued

/-! ### `WebPage` (`src/repo/crawler/webpage.py`) and the quality frontier
(`src/repo/crawler/frontier.py`, oracle mode)

Only the fields the frontier reads are modelled: the URL and the optional
`"qscore"` metadata entry (`page.get_metadata(key="qscore")` yields `none`
when the key is absent).  `docno`/`id` never reach the queue.  The frontier
is modelled in oracle mode (`oracle=True`): the non-oracle constructor raises
`NotImplementedError`, so no other mode is reachable. -/

structure WebPage (α : Type*) where
  url : α
  qscore : Option ℚ
  deriving DecidableEq

/-- `QualityFrontierManager.MAX_PRIORITY = 1`. -/
def MAX_PRIORITY : ℚ := 1

/-- `QualityFrontierManager.MIN_PRIORITY = -50`. -/
def MIN_PRIORITY : ℚ := -50

/-- `QualityFrontierManager` state when `updates=False` (queue is a
`PQueueHeap`), including the statistics counters. -/
structure QFHeapState (α : Type*) where
  queue : List (ℚ × α)
  no_priority_pages : ℕ
  priority_pages : ℕ
  no_father_pages : ℕ
  deriving DecidableEq

def qfhInit : QFHeapState α :=
  { queue := [], no_priority_pages := 0, priority_pages := 0,
    no_father_pages := 0 }

/-- `QualityFrontierManager.add_with_max_priority` on the heap variant
(the `docid` argument is unused by the method). -/
def qfhAddMax (s : QFHeapState α) (url : α) : QFHeapState α :=
  { s with queue := pqheap_put s.queue url MAX_PRIORITY }

/-- `QualityFrontierManager.add` on the heap variant: a page with no father
is a seed (`add_with_max_priority`, then `no_father_pages`/`priority_pages`
increments); otherwise the oracle priority is `page.get_metadata("qscore")`,
with `MIN_PRIORITY` substituted when missing. -/
def qfhAdd (s : QFHeapState α) (page : WebPage α) (father : Option (WebPage α)) :
    QFHeapState α :=
  match father with
  | none =>
    let s1 := qfhAddMax s page.url
    { s1 with no_father_pages := s1.no_father_pages + 1,
              priority_pages := s1.priority_pages + 1 }
  | some _ =>
    match page.qscore with
    | none =>
      { s with queue := pqheap_put s.queue page.url MIN_PRIORITY,
               no_priority_pages := s.no_priority_pages + 1 }
    | some p =>
      { s with queue := pqheap_put s.queue page.url p,
               priority_pages := s.priority_pages + 1 }

/-- `QualityFrontierManager.update` on the heap variant: in oracle mode the
candidate priority is the page's own qscore (`MIN_PRIORITY` when missing);
the heap's `update` then runs.  The `father` argument is only read in the
unreachable non-oracle branch. -/
def qfhUpdate (s : QFHeapState α) (page : WebPage α) (_father : WebPage α) :
    QFHeapState α :=
  let priority := page.qscore.getD MIN_PRIORITY
  { s with queue := pqheap_update page.url priority s.queue }

/-- `QualityFrontierManager.pop` on the heap variant: `IndexError` (`none`)
when `enqueued() == 0`, otherwise `self.queue.get()` and return the url. -/
def qfhPop (s : QFHeapState α) : Option (α × QFHeapState α) :=
  if pqheap_enqueued s.queue = 0 then none
  else
    match pqheap_get s.queue with
    | none => none
    | some ((url, _), rest) => some (url, { s with queue := rest })

/-- `QualityFrontierManager.enqueued` on the heap variant. -/
def qfhEnqueued (s : QFHeapState α) : ℕ := pqheap_enqueued s.queue

/-- `QualityFrontierManager` state when `updates=True` (queue is a
`PQueuePriorityQueue`). -/
structure QFPQState (α : Type*) where
  q : PQPQState α
  no_priority_pages : ℕ
  priority_pages : ℕ
  no_father_pages : ℕ
  deriving DecidableEq

def qfpInit : QFPQState α :=
  { q := pqpq_empty, no_priority_pages := 0, priority_pages := 0,
    no_father_pages := 0 }

/-- `QualityFrontierManager.add_with_max_priority` on the updating variant
(`put` may crash on an already tracked url). -/
def qfpAddMax (s : QFPQState α) (url : α) : Option (QFPQState α) :=
  (pqpq_put s.q url MAX_PRIORITY).map fun q1 => { s with q := q1 }

/-- `QualityFrontierManager.add` on the updating variant. -/
def qfpAdd (s : QFPQState α) (page : WebPage α) (father : Option (WebPage α)) :
    Option (QFPQState α) :=
  match father with
  | none =>
    (qfpAddMax s page.url).map fun s1 =>
      { s1 with no_father_pages := s1.no_father_pages + 1,
                priority_pages := s1.priority_pages + 1 }
  | some _ =>
    match page.qscore with
    | none =>
      (pqpq_put s.q page.url MIN_PRIORITY).map fun q1 =>
        { s with q := q1, no_priority_pages := s.no_priority_pages + 1 }
    | some p =>
      (pqpq_put s.q page.url p).map fun q1 =>
        { s with q := q1, priority_pages := s.priority_pages + 1 }

/-- `QualityFrontierManager.update` on the updating variant (oracle mode:
candidate priority from the page's own qscore, `MIN_PRIORITY` when absent). -/
def qfpUpdate (s : QFPQState α) (page : WebPage α) (_father : WebPage α) :
    Option (Bool × QFPQState α) :=
  let priority := page.qscore.getD MIN_PRIORITY
  (pqpq_update s.q page.url priority).map fun r => (r.1, { s with q := r.2 })

/-- `QualityFrontierManager.pop` on the updating variant: `IndexError`
(`none`) when `enqueued() == 0`, then `self.queue.get()`. -/
def qfpPop (s : QFPQState α) : Option (α × QFPQState α) :=
  if pqpq_enqueued s.q = 0 then none
  else
    match pqpq_get s.q with
    | none => none
    | some (url, _, q1) => some (url, { s with q := q1 })

/-- `QualityFrontierManager.enqueued` on the updating variant. -/
def qfpEnqueued (s : QFPQState α) : ℤ := pqpq_enqueued s.q

/-! ### Random / BFS / DFS frontier managers (`src/repo/crawler/frontier.py`)

All three hold a plain sequence of urls; `add`, `add_with_max_priority` and
`update` ignore page metadata entirely. -/

/-- `RandomFrontierManager.pop`, with the drawn index `k` (the value of
`random.randint(0, len(queue)-1)`) passed explicitly: swap element `k` with
the last element and pop the tail.  `none` on an empty queue (`IndexError`)
or an out-of-range draw (which `randint` never produces). -/
def randomPop (q : List α) (k : ℕ) : Option (α × List α) :=
  match q.getLast? with
  | none => none
  | some last =>
    if h : k < q.length then
      some (q.get ⟨k, h⟩, (q.set k last).dropLast)
    else none

/-- `BreadthFirstSearchFrontierManager.pop`: pop from the head. -/
def bfsPop (q : List α) : Option (α × List α) :=
  match q with
  | [] => none
  | x :: xs => some (x, xs)

/-- `DepthFirstSearchFrontierManager.pop`: pop from the tail. -/
def dfsPop (q : List α) : Option (α × List α) :=
  match q.getLast? with
  | none => none
  | some last => some (last, q.dropLast)

/-! ### Frontier operation traces (for the size invariant)

One operation alphabet interpreted by every policy: `add` is an `add(page,
father)` with a present father, `addSeed` the seed path (`father = None`, or
`add_with_max_priority` in the lazy policies), `update` an `update` call and
`pop` a `pop()` (carrying the index drawn by the Random policy's
`random.randint`; the other policies ignore it).  Execution returns `none`
as soon as any call crashes or a pop fails. -/

inductive FOp (α : Type*) where
  | add (url : α) (qscore : Option ℚ)
  | addSeed (url : α)
  | update (url : α) (qscore : Option ℚ)
  | pop (k : ℕ)

/-- Number of `add`/`addSeed` operations. -/
def numAdds : List (FOp α) → ℕ
  | [] => 0
  | .add _ _ :: ops => numAdds ops + 1
  | .addSeed _ :: ops => numAdds ops + 1
  | .update _ _ :: ops => numAdds ops
  | .pop _ :: ops => numAdds ops

/-- Number of `pop` operations. -/
def numPops : List (FOp α) → ℕ
  | [] => 0
  | .pop _ :: ops => numPops ops + 1
  | .add _ _ :: ops => numPops ops
  | .addSeed _ :: ops => numPops ops
  | .update _ _ :: ops => numPops ops

/-- The urls passed to `add`/`addSeed`, in order. -/
def addedUrls : List (FOp α) → List α
  | [] => []
  | .add u _ :: ops => u :: addedUrls ops
  | .addSeed u :: ops => u :: addedUrls ops
  | .update _ _ :: ops => addedUrls ops
  | .pop _ :: ops => addedUrls ops

/-- One step of `RandomFrontierManager` (`add`/`add_with_max_priority`
append the url; `update` is `pass`). -/
def stepRandom (q : List α) : FOp α → Option (List α)
  | .add u _ => some (q ++ [u])
  | .addSeed u => some (q ++ [u])
  | .update _ _ => some q
  | .pop k => (randomPop q k).map Prod.snd

def execRandom : List (FOp α) → List α → Option (List α)
  | [], q => some q
  | op :: ops, q =>
    match stepRandom q op with
    | none => none
    | some q1 => execRandom ops q1

/-- One step of `BreadthFirstSearchFrontierManager`. -/
def stepBfs (q : List α) : FOp α → Option (List α)
  | .add u _ => some (q ++ [u])
  | .addSeed u => some (q ++ [u])
  | .update _ _ => some q
  | .pop _ => (bfsPop q).map Prod.snd

def execBfs : List (FOp α) → List α → Option (List α)
  | [], q => some q
  | op :: ops, q =>
    match stepBfs q op with
    | none => none
    | some q1 => execBfs ops q1

/-- One step of `DepthFirstSearchFrontierManager`. -/
def stepDfs (q : List α) : FOp α → Option (List α)
  | .add u _ => some (q ++ [u])
  | .addSeed u => some (q ++ [u])
  | .update _ _ => some q
  | .pop _ => (dfsPop q).map Prod.snd

def execDfs : List (FOp α) → List α → Option (List α)
  | [], q => some q
  | op :: ops, q =>
    match stepDfs q op with
    | none => none
    | some q1 => execDfs ops q1

/-- One step of the quality frontier with `updates=False`. -/
def stepQFHeap (s : QFHeapState α) : FOp α → Option (QFHeapState α)
  | .add u q => some (qfhAdd s ⟨u, q⟩ (some ⟨u, none⟩))
  | .addSeed u => some (qfhAdd s ⟨u, none⟩ none)
  | .update u q => some (qfhUpdate s ⟨u, q⟩ ⟨u, none⟩)
  | .pop _ => (qfhPop s).map Prod.snd

def execQFHeap : List (FOp α) → QFHeapState α → Option (QFHeapState α)
  | [], s => some s
  | op :: ops, s =>
    match stepQFHeap s op with
    | none => none
    | some s1 => execQFHeap ops s1

/-- One step of the quality frontier with `updates=True`. -/
def stepQFPQ (s : QFPQState α) : FOp α → Option (QFPQState α)
  | .add u q => qfpAdd s ⟨u, q⟩ (some ⟨u, none⟩)
  | .addSeed u => qfpAdd s ⟨u, none⟩ none
  | .update u q => (qfpUpdate s ⟨u, q⟩ ⟨u, none⟩).map Prod.snd
  | .pop _ => (qfpPop s).map Prod.snd

def execQFPQ : List (FOp α) → QFPQState α → Option (QFPQState α)
  | [], s => some s
  | op :: ops, s =>
    match stepQFPQ s op with
    | none => none
    | some s1 => execQFPQ ops s1

/-! Size-delta lemmas for the individual operations. -/

theorem randomPop_length {q : List α} {k : ℕ} {u : α} {q1 : List α}
    (h : randomPop q k = some (u, q1)) : q1.length + 1 = q.length := by
  unfold randomPop at h
  cases hl : q.getLast? with
  | none => rw [hl] at h; simp at h
  | some last =>
    rw [hl] at h
    by_cases hk : k < q.length
    · simp only [hk, dif_pos, Option.some.injEq, Prod.mk.injEq] at h
      obtain ⟨-, rfl⟩ := h
      have hne : q ≠ [] := by
        intro hq; rw [hq] at hl; simp at hl
      have : (q.set k last).length = q.length := by simp
      rw [List.length_dropLast, this]
      have : 0 < q.length := List.length_pos.mpr hne
      omega
    · simp [hk] at h

theorem bfsPop_length {q : List α} {u : α} {q1 : List α}
    (h : bfsPop q = some (u, q1)) : q1.length + 1 = q.length := by
  cases q with
  | nil => simp [bfsPop] at h
  | cons x xs =>
    simp only [bfsPop, Option.some.injEq, Prod.mk.injEq] at h
    obtain ⟨-, rfl⟩ := h
    simp

theorem dfsPop_length {q : List α} {u : α} {q1 : List α}
    (h : dfsPop q = some (u, q1)) : q1.length + 1 = q.length := by
  unfold dfsPop at h
  cases hl : q.getLast? with
  | none => rw [hl] at h; simp at h
  | some last =>
    rw [hl] at h
    simp only [Option.some.injEq, Prod.mk.injEq] at h
    obtain ⟨-, rfl⟩ := h
    have hne : q ≠ [] := by
      intro hq; rw [hq] at hl; simp at hl
    have : 0 < q.length := List.length_pos.mpr hne
    rw [List.length_dropLast]
    omega

theorem qfhPop_length {s : QFHeapState α} {u : α} {s1 : QFHeapState α}
    (h : qfhPop s = some (u, s1)) : s1.queue.length + 1 = s.queue.length := by
  unfold qfhPop at h
  by_cases h0 : pqheap_enqueued s.queue = 0
  · simp [h0] at h
  · rw [if_neg h0] at h
    cases hg : pqheap_get s.queue with
    | none => rw [hg] at h; simp at h
    | some p =>
      obtain ⟨⟨url, ip⟩, rest⟩ := p
      rw [hg] at h
      simp only [Option.some.injEq, Prod.mk.injEq] at h
      obtain ⟨-, rfl⟩ := h
      unfold pqheap_get at hg
      cases hpm : heapPopMin s.queue with
      | none => rw [hpm] at hg; simp at hg
      | some pm =>
        obtain ⟨⟨ip0, it0⟩, rest0⟩ := pm
        rw [hpm] at hg
        simp only [Option.map_some', Option.some.injEq, Prod.mk.injEq] at hg
        obtain ⟨-, rfl⟩ := hg
        exact heapPopMin_length hpm

theorem pqpq_put_enqueued {s : PQPQState α} {item : α} {priority : ℚ}
    {s1 : PQPQState α} (h : pqpq_put s item priority = some s1) :
    s1.num_enqueued = s.num_enqueued + 1 := by
  unfold pqpq_put at h
  cases hl : alookup s.deleted item with
  | some _ => rw [hl] at h; simp at h
  | none =>
    rw [hl] at h
    simp only [Option.some.injEq] at h
    rw [← h]

theorem pqpq_mark_deleted_enqueued {s : PQPQState α} {item : α} {priority : ℚ}
    {s1 : PQPQState α} (h : pqpq_mark_deleted s item priority = some s1) :
    s1.num_enqueued = s.num_enqueued := by
  unfold pqpq_mark_deleted at h
  cases hl : alookup s.deleted item with
  | none => rw [hl] at h; simp at h
  | some p =>
    obtain ⟨oldip, oldc⟩ := p
    rw [hl] at h
    simp only [] at h
    by_cases hc : -oldip ≤ priority
    · rw [if_pos hc] at h
      simp only [Option.some.injEq] at h
      rw [← h]
    · rw [if_neg hc] at h
      simp only [Option.some.injEq] at h
      rw [← h]

theorem pqpq_getAux_enqueued :
    ∀ (fuel : ℕ) (s : PQPQState α) (u : α) (p : ℚ) (s1 : PQPQState α),
      pqpq_getAux fuel s = some (u, p, s1) →
        s1.num_enqueued = s.num_enqueued - 1 := by
  intro fuel
  induction fuel with
  | zero => intro s u p s1 h; simp [pqpq_getAux] at h
  | succ fuel ih =>
    intro s u p s1 h
    unfold pqpq_getAux at h
    cases hpm : heapPopMin s.queue with
    | none => rw [hpm] at h; simp at h
    | some pm =>
      obtain ⟨⟨ip, item⟩, rest⟩ := pm
      rw [hpm] at h
      simp only [] at h
      cases hl : alookup s.deleted item with
      | none => rw [hl] at h; simp at h
      | some q =>
        obtain ⟨mip, cnt⟩ := q
        rw [hl] at h
        simp only [] at h
        by_cases hst : -mip < -ip
        · rw [if_pos hst] at h
          have h2 := ih _ _ _ _ h
          simpa using h2
        · rw [if_neg hst] at h
          simp only [Option.some.injEq, Prod.mk.injEq] at h
          obtain ⟨-, -, rfl⟩ := h
          rfl

theorem pqpq_get_enqueued {s : PQPQState α} {u : α} {p : ℚ} {s1 : PQPQState α}
    (h : pqpq_get s = some (u, p, s1)) : s1.num_enqueued = s.num_enqueued - 1 :=
  pqpq_getAux_enqueued _ s u p s1 h

theorem pqpq_cleanup_enqueued {s s1 : PQPQState α}
    (h : pqpq_cleanup s = some s1) : s1.num_enqueued = s.num_enqueued := by
  unfold pqpq_cleanup at h
  cases hl : pqpq_cleanupLoop s.queue.length s [] [] with
  | none => rw [hl] at h; simp at h
  | some acc =>
    rw [hl] at h
    simp only [Option.map_some', Option.some.injEq] at h
    rw [← h]

theorem pqpq_update_enqueued {s : PQPQState α} {item : α} {priority : ℚ}
    {b : Bool} {s1 : PQPQState α}
    (h : pqpq_update s item priority = some (b, s1)) :
    s1.num_enqueued = s.num_enqueued := by
  unfold pqpq_update at h
  cases hl : alookup s.deleted item with
  | none =>
    rw [hl] at h
    simp only [Option.some.injEq, Prod.mk.injEq] at h
    obtain ⟨-, rfl⟩ := h
    rfl
  | some p =>
    obtain ⟨oldip, oldc⟩ := p
    rw [hl] at h
    simp only [] at h
    cases hs : (if priority < -oldip then
        (pqpq_mark_deleted s item priority).map
          (fun st => { st with queue := (-priority, item) :: st.queue })
      else some s) with
    | none => rw [hs] at h; simp at h
    | some s2 =>
      rw [hs] at h
      have h2 : s2.num_enqueued = s.num_enqueued := by
        by_cases hc : priority < -oldip
        · rw [if_pos hc] at hs
          cases hm : pqpq_mark_deleted s item priority with
          | none => rw [hm] at hs; simp at hs
          | some s3 =>
            rw [hm] at hs
            simp only [Option.map_some', Option.some.injEq] at hs
            rw [← hs]
            have h3 := pqpq_mark_deleted_enqueued hm
            simpa using h3
        · rw [if_neg hc] at hs
          simp only [Option.some.injEq] at hs
          rw [← hs]
      simp only at h
      by_cases ht : MAX_DELETED_THRESHOLD < s2.num_deleted
      · rw [if_pos ht] at h
        cases hcl : pqpq_cleanup s2 with
        | none => rw [hcl] at h; simp at h
        | some s3 =>
          rw [hcl] at h
          simp only [Option.map_some', Option.some.injEq, Prod.mk.injEq] at h
          obtain ⟨-, rfl⟩ := h
          rw [pqpq_cleanup_enqueued hcl]
          exact h2
      · rw [if_neg ht] at h
        simp only [Option.some.injEq, Prod.mk.injEq] at h
        obtain ⟨-, rfl⟩ := h
        exact h2

theorem qfhAdd_length (s : QFHeapState α) (page : WebPage α)
    (father : Option (WebPage α)) :
    (qfhAdd s page father).queue.length = s.queue.length + 1 := by
  cases father with
  | none => simp [qfhAdd, qfhAddMax, pqheap_put]
  | some f => cases hq : page.qscore <;> simp [qfhAdd, pqheap_put, hq]

theorem qfpAdd_enqueued {s : QFPQState α} {page : WebPage α}
    {father : Option (WebPage α)} {s1 : QFPQState α}
    (h : qfpAdd s page father = some s1) :
    s1.q.num_enqueued = s.q.num_enqueued + 1 := by
  cases father with
  | none =>
    simp only [qfpAdd, qfpAddMax] at h
    cases hp : pqpq_put s.q page.url MAX_PRIORITY with
    | none => rw [hp] at h; simp at h
    | some q1 =>
      rw [hp] at h
      simp only [Option.map_some', Option.some.injEq] at h
      rw [← h]
      exact pqpq_put_enqueued hp
  | some f =>
    simp only [qfpAdd] at h
    cases hq : page.qscore with
    | none =>
      rw [hq] at h
      simp only [] at h
      cases hp : pqpq_put s.q page.url MIN_PRIORITY with
      | none => rw [hp] at h; simp at h
      | some q1 =>
        rw [hp] at h
        simp only [Option.map_some', Option.some.injEq] at h
        rw [← h]
        exact pqpq_put_enqueued hp
    | some p =>
      rw [hq] at h
      simp only [] at h
      cases hp : pqpq_put s.q page.url p with
      | none => rw [hp] at h; simp at h
      | some q1 =>
        rw [hp] at h
        simp only [Option.map_some', Option.some.injEq] at h
        rw [← h]
        exact pqpq_put_enqueued hp

theorem qfpUpdate_enqueued {s : QFPQState α} {page : WebPage α}
    {father : WebPage α} {b : Bool} {s1 : QFPQState α}
    (h : qfpUpdate s page father = some (b, s1)) :
    s1.q.num_enqueued = s.q.num_enqueued := by
  simp only [qfpUpdate] at h
  cases hu : pqpq_update s.q page.url (page.qscore.getD MIN_PRIORITY) with
  | none => rw [hu] at h; simp at h
  | some r =>
    obtain ⟨b0, q1⟩ := r
    rw [hu] at h
    simp only [Option.map_some', Option.some.injEq, Prod.mk.injEq] at h
    obtain ⟨-, rfl⟩ := h
    exact pqpq_update_enqueued hu

theorem qfpPop_enqueued {s : QFPQState α} {u : α} {s1 : QFPQState α}
    (h : qfpPop s = some (u, s1)) :
    s1.q.num_enqueued = s.q.num_enqueued - 1 := by
  unfold qfpPop at h
  by_cases h0 : pqpq_enqueued s.q = 0
  · simp [h0] at h
  · rw [if_neg h0] at h
    cases hg : pqpq_get s.q with
    | none => rw [hg] at h; simp at h
    | some r =>
      obtain ⟨url, p, q1⟩ := r
      rw [hg] at h
      simp only [Option.some.injEq, Prod.mk.injEq] at h
      obtain ⟨-, rfl⟩ := h
      exact pqpq_get_enqueued hg

/-! Trace-level size accounting, one lemma per policy. -/

theorem execRandom_count :
    ∀ (ops : List (FOp α)) (q q' : List α), execRandom ops q = some q' →
      (q'.length : ℤ) + numPops ops = (q.length : ℤ) + numAdds ops := by
  intro ops
  induction ops with
  | nil =>
    intro q q' h
    simp only [execRandom, Option.some.injEq] at h
    subst h
    simp [numPops, numAdds]
  | cons op ops ih =>
    intro q q' h
    cases op with
    | add u qs =>
      simp only [execRandom, stepRandom] at h
      have h2 := ih _ _ h
      simp only [numPops, numAdds, List.length_append, List.length_singleton] at h2 ⊢
      push_cast at h2 ⊢
      omega
    | addSeed u =>
      simp only [execRandom, stepRandom] at h
      have h2 := ih _ _ h
      simp only [numPops, numAdds, List.length_append, List.length_singleton] at h2 ⊢
      push_cast at h2 ⊢
      omega
    | update u qs =>
      simp only [execRandom, stepRandom] at h
      have h2 := ih _ _ h
      simp only [numPops, numAdds] at h2 ⊢
      omega
    | pop k =>
      simp only [execRandom, stepRandom] at h
      cases hr : randomPop q k with
      | none => rw [hr] at h; simp at h
      | some r =>
        obtain ⟨u, q1⟩ := r
        rw [hr] at h
        simp only [Option.map_some'] at h
        have h2 := ih _ _ h
        have h3 := randomPop_length hr
        simp only [numPops, numAdds] at h2 ⊢
        push_cast at h2 ⊢
        omega

theorem execBfs_count :
    ∀ (ops : List (FOp α)) (q q' : List α), execBfs ops q = some q' →
      (q'.length : ℤ) + numPops ops = (q.length : ℤ) + numAdds ops := by
  intro ops
  induction ops with
  | nil =>
    intro q q' h
    simp only [execBfs, Option.some.injEq] at h
    subst h
    simp [numPops, numAdds]
  | cons op ops ih =>
    intro q q' h
    cases op with
    | add u qs =>
      simp only [execBfs, stepBfs] at h
      have h2 := ih _ _ h
      simp only [numPops, numAdds, List.length_append, List.length_singleton] at h2 ⊢
      push_cast at h2 ⊢
      omega
    | addSeed u =>
      simp only [execBfs, stepBfs] at h
      have h2 := ih _ _ h
      simp only [numPops, numAdds, List.length_append, List.length_singleton] at h2 ⊢
      push_cast at h2 ⊢
      omega
    | update u qs =>
      simp only [execBfs, stepBfs] at h
      have h2 := ih _ _ h
      simp only [numPops, numAdds] at h2 ⊢
      omega
    | pop k =>
      simp only [execBfs, stepBfs] at h
      cases hr : bfsPop q with
      | none => rw [hr] at h; simp at h
      | some r =>
        obtain ⟨u, q1⟩ := r
        rw [hr] at h
        simp only [Option.map_some'] at h
        have h2 := ih _ _ h
        have h3 := bfsPop_length hr
        simp only [numPops, numAdds] at h2 ⊢
        push_cast at h2 ⊢
        omega

theorem execDfs_count :
    ∀ (ops : List (FOp α)) (q q' : List α), execDfs ops q = some q' →
      (q'.length : ℤ) + numPops ops = (q.length : ℤ) + numAdds ops := by
  intro ops
  induction ops with
  | nil =>
    intro q q' h
    simp only [execDfs, Option.some.injEq] at h
    subst h
    simp [numPops, numAdds]
  | cons op ops ih =>
    intro q q' h
    cases op with
    | add u qs =>
      simp only [execDfs, stepDfs] at h
      have h2 := ih _ _ h
      simp only [numPops, numAdds, List.length_append, List.length_singleton] at h2 ⊢
      push_cast at h2 ⊢
      omega
    | addSeed u =>
      simp only [execDfs, stepDfs] at h
      have h2 := ih _ _ h
      simp only [numPops, numAdds, List.length_append, List.length_singleton] at h2 ⊢
      push_cast at h2 ⊢
      omega
    | update u qs =>
      simp only [execDfs, stepDfs] at h
      have h2 := ih _ _ h
      simp only [numPops, numAdds] at h2 ⊢
      omega
    | pop k =>
      simp only [execDfs, stepDfs] at h
      cases hr : dfsPop q with
      | none => rw [hr] at h; simp at h
      | some r =>
        obtain ⟨u, q1⟩ := r
        rw [hr] at h
        simp only [Option.map_some'] at h
        have h2 := ih _ _ h
        have h3 := dfsPop_length hr
        simp only [numPops, numAdds] at h2 ⊢
        push_cast at h2 ⊢
        omega

theorem execQFHeap_count :
    ∀ (ops : List (FOp α)) (s s' : QFHeapState α), execQFHeap ops s = some s' →
      (qfhEnqueued s' : ℤ) + numPops ops = (qfhEnqueued s : ℤ) + numAdds ops := by
  intro ops
  induction ops with
  | nil =>
    intro s s' h
    simp only [execQFHeap, Option.some.injEq] at h
    subst h
    simp [numPops, numAdds]
  | cons op ops ih =>
    intro s s' h
    cases op with
    | add u qs =>
      simp only [execQFHeap, stepQFHeap] at h
      have h2 := ih _ _ h
      have h3 := qfhAdd_length s ⟨u, qs⟩ (some ⟨u, none⟩)
      simp only [numPops, numAdds, qfhEnqueued, pqheap_enqueued] at h2 ⊢
      rw [h3] at h2
      push_cast at h2 ⊢
      omega
    | addSeed u =>
      simp only [execQFHeap, stepQFHeap] at h
      have h2 := ih _ _ h
      have h3 := qfhAdd_length s ⟨u, none⟩ none
      simp only [numPops, numAdds, qfhEnqueued, pqheap_enqueued] at h2 ⊢
      rw [h3] at h2
      push_cast at h2 ⊢
      omega
    | update u qs =>
      simp only [execQFHeap, stepQFHeap] at h
      have h2 := ih _ _ h
      simp only [numPops, numAdds, qfhEnqueued, pqheap_enqueued, qfhUpdate] at h2 ⊢
      rw [pqheap_update_length] at h2
      omega
    | pop k =>
      simp only [execQFHeap, stepQFHeap] at h
      cases hr : qfhPop s with
      | none => rw [hr] at h; simp at h
      | some r =>
        obtain ⟨u, s1⟩ := r
        rw [hr] at h
        simp only [Option.map_some'] at h
        have h2 := ih _ _ h
        have h3 := qfhPop_length hr
        simp only [numPops, numAdds, qfhEnqueued, pqheap_enqueued] at h2 ⊢
        push_cast at h2 ⊢
        omega

theorem execQFPQ_count :
    ∀ (ops : List (FOp α)) (s s' : QFPQState α), execQFPQ ops s = some s' →
      qfpEnqueued s' + numPops ops = qfpEnqueued s + numAdds ops := by
  intro ops
  induction ops with
  | nil =>
    intro s s' h
    simp only [execQFPQ, Option.some.injEq] at h
    subst h
    simp [numPops, numAdds]
  | cons op ops ih =>
    intro s s' h
    cases op with
    | add u qs =>
      simp only [execQFPQ, stepQFPQ] at h
      cases ha : qfpAdd s ⟨u, qs⟩ (some ⟨u, none⟩) with
      | none => rw [ha] at h; simp at h
      | some s1 =>
        rw [ha] at h
        simp only [] at h
        have h2 := ih _ _ h
        have h3 := qfpAdd_enqueued ha
        simp only [numPops, numAdds, qfpEnqueued, pqpq_enqueued] at h2 ⊢
        push_cast at h2 ⊢
        omega
    | addSeed u =>
      simp only [execQFPQ, stepQFPQ] at h
      cases ha : qfpAdd s ⟨u, none⟩ none with
      | none => rw [ha] at h; simp at h
      | some s1 =>
        rw [ha] at h
        simp only [] at h
        have h2 := ih _ _ h
        have h3 := qfpAdd_enqueued ha
        simp only [numPops, numAdds, qfpEnqueued, pqpq_enqueued] at h2 ⊢
        push_cast at h2 ⊢
        omega
    | update u qs =>
      simp only [execQFPQ, stepQFPQ] at h
      cases hu : qfpUpdate s ⟨u, qs⟩ ⟨u, none⟩ with
      | none => rw [hu] at h; simp at h
      | some r =>
        obtain ⟨b, s1⟩ := r
        rw [hu] at h
        simp only [Option.map_some'] at h
        have h2 := ih _ _ h
        have h3 := qfpUpdate_enqueued hu
        simp only [numPops, numAdds, qfpEnqueued, pqpq_enqueued] at h2 ⊢
        omega
    | pop k =>
      simp only [execQFPQ, stepQFPQ] at h
      cases hr : qfpPop s with
      | none => rw [hr] at h; simp at h
      | some r =>
        obtain ⟨u, s1⟩ := r
        rw [hr] at h
        simp only [Option.map_some'] at h
        have h2 := ih _ _ h
        have h3 := qfpPop_enqueued hr
        simp only [numPops, numAdds, qfpEnqueued, pqpq_enqueued] at h2 ⊢
        omega

/-- Operation trace used to witness the size invariant. -/
def c2ops : List (FOp ℕ) :=
  [FOp.addSeed 0, FOp.add 1 (some (-3)), FOp.update 1 (some (-2)),
   FOp.pop 0, FOp.pop 0]

/-- **C2**: for every frontier policy (Random, BFS, DFS, quality-heap,
quality-updating) and every crash-free trace of `add`/`add_seed` calls with
pairwise-distinct URLs, `update` calls and successful `pop` calls, `size()`
(`enqueued()` in the code) equals the number of URLs added minus the number
of URLs returned by `pop`; in particular accepted updates and stale-entry
discards during `pop` leave `size()` unchanged. -/
theorem C2_size_invariant (ops : List (FOp α))
    (hdist : (addedUrls ops).Pairwise (· ≠ ·)) :
    (∀ q : List α, execRandom ops [] = some q →
      (q.length : ℤ) + numPops ops = numAdds ops) ∧
    (∀ q : List α, execBfs ops [] = some q →
      (q.length : ℤ) + numPops ops = numAdds ops) ∧
    (∀ q : List α, execDfs ops [] = some q →
      (q.length : ℤ) + numPops ops = numAdds ops) ∧
    (∀ s : QFHeapState α, execQFHeap ops qfhInit = some s →
      (qfhEnqueued s : ℤ) + numPops ops = numAdds ops) ∧
    (∀ s : QFPQState α, execQFPQ ops qfpInit = some s →
      qfpEnqueued s + numPops ops = numAdds ops) := by
  refine ⟨fun q h => ?_, fun q h => ?_, fun q h => ?_, fun s h => ?_,
    fun s h => ?_⟩
  · have h2 := execRandom_count ops [] q h
    simpa using h2
  · have h2 := execBfs_count ops [] q h
    simpa using h2
  · have h2 := execDfs_count ops [] q h
    simpa using h2
  · have h2 := execQFHeap_count ops qfhInit s h
    simpa [qfhInit, qfhEnqueued, pqheap_enqueued] using h2
  · have h2 := execQFPQ_count ops qfpInit s h
    simpa [qfpInit, qfpEnqueued, pqpq_enqueued, pqpq_empty] using h2

/-- Witness for C2: a concrete trace (seed add, quality add, non-improving
update, two pops) run on the quality-updating frontier. -/
theorem C2_size_invariant_witness :
    qfpEnqueued (⟨⟨[], [], 0, 0⟩, 0, 2, 1⟩ : QFPQState ℕ) + numPops c2ops =
      numAdds c2ops :=
  (C2_size_invariant c2ops (by decide)).2.2.2.2 _ (by decide)

/-! ### C1 / C5: the acceptance condition of `PQueuePriorityQueue.update`

`update`'s comment says "check if new priority is higher than the current
one", and the repository's own tests (`src/repo/tests/test_pqueue.py`,
e.g. `test_cleanup_deleted`, `test_cleanup_deleted2`,
`test_many_cleanup_deleted2`) mark raising updates `# inserted` and lowering
ones `# skipped`.  The implemented guard
`self._external_priority(old_priority) > priority` does the opposite: it
accepts exactly the strictly *lower* candidates. -/

/-- The queue state after `put(0, 5)` on a fresh `PQueuePriorityQueue`. -/
def c1s0 : PQPQState ℕ :=
  { queue := [(-5, 0)], deleted := [(0, (-5, 0))],
    num_enqueued := 1, num_deleted := 0 }

/-- **C1** (code bug, evaluation at the failing input): after `put(0, 5)`,
`update(0, 7)` with a strictly higher candidate is a no-op returning `True`
(no heap push, table untouched), while `update(0, 3)` with a strictly lower
candidate is accepted: it pushes `(3, 0)`, lowers the table priority to `3`
and increments the stale count — the exact opposite of the claimed
acceptance condition, so the recorded priority is monotonically
non-increasing, not non-decreasing. -/
theorem C1_update_accepts_lower_not_higher :
    pqpq_put (pqpq_empty : PQPQState ℕ) 0 5 = some c1s0 ∧
    pqpq_update c1s0 0 7 = some (true, c1s0) ∧
    pqpq_update c1s0 0 3 = some (true,
      { queue := [(-3, 0), (-5, 0)], deleted := [(0, (-3, 1))],
        num_enqueued := 1, num_deleted := 1 }) := by
  refine ⟨by decide, by decide, by decide⟩

/-- The queue state after `put(0, 10)` on a fresh `PQueuePriorityQueue`. -/
def c5s0 : PQPQState ℕ :=
  { queue := [(-10, 0)], deleted := [(0, (-10, 0))],
    num_enqueued := 1, num_deleted := 0 }

/-- **C5** (code bug, evaluation at the failing input): `update` does return
`False` exactly on untracked urls (leaving the state unchanged) and `True`
on tracked ones, but for a tracked url with a non-improving candidate
(4 against best 10) the frontier state is *not* left unchanged: the code
pushes a fresh lower-priority entry and rewrites the table entry. -/
theorem C5_update_nonimproving_mutates :
    pqpq_update c5s0 1 4 = some (false, c5s0) ∧
    pqpq_update c5s0 0 4 = some (true,
      { queue := [(-4, 0), (-10, 0)], deleted := [(0, (-4, 1))],
        num_enqueued := 1, num_deleted := 1 }) ∧
    ({ queue := [(-4, 0), (-10, 0)], deleted := [(0, (-4, 1))],
       num_enqueued := 1, num_deleted := 1 } : PQPQState ℕ) ≠ c5s0 := by
  refine ⟨by decide, by decide, by decide⟩

/-! ### C3 / C4: the quality-heap frontier -/

theorem pqheap_update_not_mem {item : α} {priority : ℚ} :
    ∀ q : List (ℚ × α), item ∉ q.map Prod.snd →
      pqheap_update item priority q = q := by
  intro q
  induction q with
  | nil => intro _; rfl
  | cons e rest ih =>
    obtain ⟨ip, it⟩ := e
    intro hmem
    simp only [List.map_cons, List.mem_cons] at hmem
    push_neg at hmem
    obtain ⟨h1, h2⟩ := hmem
    simp only [pqheap_update]
    rw [if_neg (by simpa using h1.symm)]
    rw [ih (by simpa using h2)]

theorem pqheap_update_decomp {item : α} {priority : ℚ} :
    ∀ (l1 : List (ℚ × α)) (ip : ℚ) (l2 : List (ℚ × α)),
      item ∉ l1.map Prod.snd →
      pqheap_update item priority (l1 ++ (ip, item) :: l2) =
        if -ip < priority then l1 ++ (-priority, item) :: l2
        else l1 ++ (ip, item) :: l2 := by
  intro l1
  induction l1 with
  | nil =>
    intro ip l2 _
    by_cases hc : -ip < priority <;> simp [pqheap_update, hc]
  | cons e rest ih =>
    obtain ⟨jp, jt⟩ := e
    intro ip l2 hmem
    simp only [List.map_cons, List.mem_cons] at hmem
    push_neg at hmem
    obtain ⟨h1, h2⟩ := hmem
    rw [List.cons_append]
    simp only [pqheap_update]
    rw [if_neg (by simpa using h1.symm)]
    rw [ih ip l2 (by simpa using h2)]
    by_cases hc : -ip < priority <;> simp [hc]

/-- **C3 counterexample**: on the heap-backed quality frontier
(`updates=False`), `update` is *not* a no-op: with the single entry
`(3, url 0)` in the heap, an update carrying qscore `8` rewrites the
entry's priority in place, changing the heap contents (and hence later
pops). -/
theorem C3_counterexample_update_not_noop :
    (qfhUpdate (⟨[((-3 : ℚ), 0)], 0, 0, 0⟩ : QFHeapState ℕ)
        ⟨0, some 8⟩ ⟨1, none⟩).queue = [((-8 : ℚ), 0)] ∧
    (qfhUpdate (⟨[((-3 : ℚ), 0)], 0, 0, 0⟩ : QFHeapState ℕ)
        ⟨0, some 8⟩ ⟨1, none⟩).queue ≠ [((-3 : ℚ), 0)] := by
  refine ⟨by decide, by decide⟩

/-- **C3 (amended)**: on the heap-backed quality frontier, `update(page,
parent)` never changes `size()`; it leaves the whole state unchanged when
the page's URL has no heap entry; and when the first entry for the URL is
`(p, url)`, it replaces that entry's priority by the candidate
(`page.qscore`, or `MIN_PRIORITY` when missing) exactly when the candidate
is strictly higher than `p`, leaving the heap unchanged otherwise. -/
theorem C3_amended_update_characterisation :
    (∀ (s : QFHeapState α) (page father : WebPage α),
        qfhEnqueued (qfhUpdate s page father) = qfhEnqueued s) ∧
    (∀ (s : QFHeapState α) (page father : WebPage α),
        page.url ∉ s.queue.map Prod.snd → qfhUpdate s page father = s) ∧
    (∀ (s : QFHeapState α) (page father : WebPage α) (l1 : List (ℚ × α))
        (ip : ℚ) (l2 : List (ℚ × α)),
        s.queue = l1 ++ (ip, page.url) :: l2 →
        page.url ∉ l1.map Prod.snd →
        (qfhUpdate s page father).queue =
          if -ip < page.qscore.getD MIN_PRIORITY then
            l1 ++ (-(page.qscore.getD MIN_PRIORITY), page.url) :: l2
          else s.queue) := by
  refine ⟨fun s page father => ?_, fun s page father hmem => ?_,
    fun s page father l1 ip l2 hq hmem => ?_⟩
  · simp only [qfhEnqueued, qfhUpdate, pqheap_enqueued]
    exact pqheap_update_length _ _ _
  · simp only [qfhUpdate]
    rw [pqheap_update_not_mem s.queue hmem]
  · simp only [qfhUpdate, hq]
    exact pqheap_update_decomp l1 ip l2 hmem

/-- Witness for the amended C3: raising the only entry's priority from 5 to
the page's qscore 7 rewrites the entry. -/
theorem C3_amended_witness :
    (qfhUpdate (⟨[((-5 : ℚ), 0)], 0, 0, 0⟩ : QFHeapState ℕ)
        ⟨0, some 7⟩ ⟨1, none⟩).queue = [((-7 : ℚ), 0)] := by
  have h := (C3_amended_update_characterisation (α := ℕ)).2.2
    ⟨[(-5, 0)], 0, 0, 0⟩ ⟨0, some 7⟩ ⟨1, none⟩ [] (-5) [] rfl (by simp)
  norm_num [MIN_PRIORITY] at h
  exact h

/-- **C4**: on the heap-backed quality frontier, `add` with a father
enqueues the page's URL at priority `page.qscore` (`MIN_PRIORITY = -50` when
missing), seeds (`father = None`) are enqueued at `MAX_PRIORITY = 1`, and
for two back-to-back adds `(u1, p1)` then `(u2, p2)` of fresh distinct URLs
with `p1 > p2`, the pop sequence returns `u1` strictly before `u2`. -/
theorem C4_quality_heap_add_and_pop_order :
    MIN_PRIORITY = -50 ∧ MAX_PRIORITY = 1 ∧
    (∀ (s : QFHeapState α) (page f : WebPage α),
        (qfhAdd s page (some f)).queue =
          (-(page.qscore.getD MIN_PRIORITY), page.url) :: s.queue) ∧
    (∀ (s : QFHeapState α) (page : WebPage α),
        (qfhAdd s page none).queue = (-MAX_PRIORITY, page.url) :: s.queue) ∧
    (∀ (q : List (ℚ × α)) (u1 u2 : α) (p1 p2 : ℚ),
        u1 ≠ u2 → p2 < p1 →
        u1 ∉ q.map Prod.snd → u2 ∉ q.map Prod.snd →
        ∃ i j : ℕ, i < j ∧
          ((heapDrain (pqheap_put (pqheap_put q u1 p1) u2 p2)).map
            Prod.snd).get? i = some u1 ∧
          ((heapDrain (pqheap_put (pqheap_put q u1 p1) u2 p2)).map
            Prod.snd).get? j = some u2) := by
  refine ⟨rfl, rfl, fun s page f => ?_, fun s page => ?_,
    fun q u1 u2 p1 p2 hne hp hu1 hu2 => ?_⟩
  · cases hq : page.qscore <;> simp [qfhAdd, pqheap_put, hq]
  · simp [qfhAdd, qfhAddMax, pqheap_put]
  · set L := pqheap_put (pqheap_put q u1 p1) u2 p2 with hL
    have hperm := heapDrain_perm L
    have hsorted := heapDrain_sorted L
    have he1 : ((-p1 : ℚ), u1) ∈ heapDrain L := by
      rw [hperm.mem_iff]
      simp [hL, pqheap_put]
    have he2 : ((-p2 : ℚ), u2) ∈ heapDrain L := by
      rw [hperm.mem_iff]
      simp [hL, pqheap_put]
    obtain ⟨i, hi⟩ := List.mem_iff_get.mp he1
    obtain ⟨j, hj⟩ := List.mem_iff_get.mp he2
    have hlt : (-p1 : ℚ) < -p2 := neg_lt_neg hp
    have hij : (i : ℕ) < j := by
      rcases lt_trichotomy (i : ℕ) (j : ℕ) with h | h | h
      · exact h
      · exfalso
        apply hne
        have hij0 : i = j := Fin.ext h
        rw [hij0, hj] at hi
        exact (congrArg Prod.snd hi).symm
      · exfalso
        have hle := (List.pairwise_iff_get.mp hsorted) j i (by exact h)
        rw [hi, hj] at hle
        rcases hle with hc | ⟨hc, -⟩
        · simp only at hc
          exact absurd (hlt.trans hc) (lt_irrefl _)
        · simp only at hc
          rw [hc] at hlt
          exact absurd hlt (lt_irrefl _)
    refine ⟨i, j, hij, ?_, ?_⟩
    · rw [List.get?_map, List.get?_eq_get i.isLt, hi]
      rfl
    · rw [List.get?_map, List.get?_eq_get j.isLt, hj]
      rfl

/-- Witness for C4: adding `u1 = 0` at priority 1 and then `u2 = 1` at
priority 0 into an empty heap pops 0 before 1. -/
theorem C4_quality_heap_witness :
    ∃ i j : ℕ, i < j ∧
      ((heapDrain (pqheap_put (pqheap_put ([] : List (ℚ × ℕ)) 0 1) 1 0)).map
        Prod.snd).get? i = some 0 ∧
      ((heapDrain (pqheap_put (pqheap_put ([] : List (ℚ × ℕ)) 0 1) 1 0)).map
        Prod.snd).get? j = some 1 :=
  (C4_quality_heap_add_and_pop_order (α := ℕ)).2.2.2.2 [] 0 1 1 0
    (by decide) (by norm_num) (by simp) (by simp)

/-! ### `Parser.clean_links` (`src/repo/crawler/parser.py`, lines 83-97)

Outlink entries are lists whose element `URL_INDEX = 0` is the url
(`link[URL_INDEX]`); an empty entry would raise `IndexError` (`none`). -/

/-- The `for link in links` loop of `clean_links`, with `acc` playing
`cleaned_links` (appends at the tail, membership tested against `acc`). -/
def cleanLinksLoop (url : α) : List (List α) → List α → Option (List α)
  | [], acc => some acc
  | l :: ls, acc =>
    match l with
    | [] => none
    | u :: _ =>
      cleanLinksLoop url ls (if u ≠ url ∧ u ∉ acc then acc ++ [u] else acc)

/-- `Parser.clean_links(links, url)`. -/
def clean_links (links : List (List α)) (url : α) : Option (List α) :=
  cleanLinksLoop url links []

/-- Modelled from the spec's words (the comparison target for C8):
first-seen deduplication — keep an element iff it has not been seen yet. -/
def dedupFirstSeen (seen : List α) : List α → List α
  | [] => []
  | u :: us =>
    if u ∈ seen then dedupFirstSeen seen us
    else u :: dedupFirstSeen (u :: seen) us

/-- Modelled from the spec's words (the comparison target for C8): drop
self-links, then drop duplicates keeping the first occurrence of each
survivor. -/
def specCleanLinks (urls : List α) (url : α) : List α :=
  dedupFirstSeen [] (urls.filter (· ≠ url))

/-- Acc-generalised form of `specCleanLinks` mirroring the loop. -/
def cleanAux (url : α) (acc : List α) : List α → List α
  | [] => []
  | u :: us =>
    if u ≠ url ∧ u ∉ acc then u :: cleanAux url (acc ++ [u]) us
    else cleanAux url acc us

theorem cleanLinksLoop_spec (url : α) :
    ∀ (links : List (List α)) (urls : List α) (acc : List α),
      links.map List.head? = urls.map some →
      cleanLinksLoop url links acc = some (acc ++ cleanAux url acc urls) := by
  intro links
  induction links with
  | nil =>
    intro urls acc h
    have : urls = [] := by
      cases urls with
      | nil => rfl
      | cons u us => simp at h
    subst this
    simp [cleanLinksLoop, cleanAux]
  | cons l ls ih =>
    intro urls acc h
    cases urls with
    | nil => simp at h
    | cons u us =>
      simp only [List.map_cons, List.cons.injEq] at h
      obtain ⟨h1, h2⟩ := h
      cases l with
      | nil => simp at h1
      | cons u0 tl =>
        simp only [List.head?] at h1
        rw [Option.some.injEq] at h1
        subst h1
        simp only [cleanLinksLoop]
        by_cases hc : u0 ≠ url ∧ u0 ∉ acc
        · rw [if_pos hc, ih us _ h2]
          simp only [cleanAux, if_pos hc]
          rw [List.append_assoc]
          rfl
        · rw [if_neg hc, ih us _ h2]
          simp only [cleanAux, if_neg hc]

theorem cleanAux_eq_dedup (url : α) :
    ∀ (urls : List α) (acc seen : List α),
      (∀ x, x ∈ acc ↔ x ∈ seen) →
      cleanAux url acc urls = dedupFirstSeen seen (urls.filter (· ≠ url)) := by
  intro urls
  induction urls with
  | nil => intro acc seen _; rfl
  | cons u us ih =>
    intro acc seen hiff
    by_cases hurl : u = url
    · subst hurl
      simp only [cleanAux, List.filter_cons]
      rw [if_neg (show ¬(u ≠ u ∧ u ∉ acc) by simp)]
      rw [if_neg (show ¬(decide (u ≠ u) = true) by simp)]
      exact ih acc seen hiff
    · simp only [cleanAux, List.filter_cons]
      rw [if_pos (show (decide (u ≠ url)) = true by simp [hurl])]
      simp only [dedupFirstSeen]
      by_cases hmem : u ∈ acc
      · rw [if_neg (show ¬(u ≠ url ∧ u ∉ acc) by simp [hurl, hmem])]
        rw [if_pos ((hiff u).mp hmem)]
        exact ih acc seen hiff
      · rw [if_pos (show (u ≠ url ∧ u ∉ acc) from ⟨hurl, hmem⟩)]
        rw [if_neg (fun hs => hmem ((hiff u).mpr hs))]
        congr 1
        refine ih (acc ++ [u]) (u :: seen) ?_
        intro x
        simp only [List.mem_append, List.mem_singleton, List.mem_cons]
        rw [hiff x]
        tauto

theorem mem_dedupFirstSeen :
    ∀ (us seen : List α) (x : α),
      x ∈ dedupFirstSeen seen us ↔ x ∈ us ∧ x ∉ seen := by
  intro us
  induction us with
  | nil => intro seen x; simp [dedupFirstSeen]
  | cons u us ih =>
    intro seen x
    by_cases hu : u ∈ seen
    · simp only [dedupFirstSeen, if_pos hu, ih, List.mem_cons]
      constructor
      · rintro ⟨hx, hns⟩; exact ⟨Or.inr hx, hns⟩
      · rintro ⟨hx | hx, hns⟩
        · exact absurd (hx ▸ hu) hns
        · exact ⟨hx, hns⟩
    · simp only [dedupFirstSeen]
      rw [if_neg hu]
      simp only [List.mem_cons, ih]
      constructor
      · rintro (rfl | ⟨hx, hns⟩)
        · exact ⟨Or.inl rfl, hu⟩
        · refine ⟨Or.inr hx, fun hxs => hns ?_⟩
          simp [hxs]
      · rintro ⟨rfl | hx, hns⟩
        · exact Or.inl rfl
        · by_cases hxu : x = u
          · exact Or.inl hxu
          · exact Or.inr ⟨hx, by simp [hxu, hns]⟩

theorem nodup_dedupFirstSeen :
    ∀ (us seen : List α), (dedupFirstSeen seen us).Nodup := by
  intro us
  induction us with
  | nil => intro seen; simp [dedupFirstSeen]
  | cons u us ih =>
    intro seen
    by_cases hu : u ∈ seen
    · simpa [dedupFirstSeen, if_pos hu] using ih seen
    · simp only [dedupFirstSeen, if_neg hu]
      refine List.Nodup.cons ?_ (ih (u :: seen))
      intro hmem
      have := (mem_dedupFirstSeen us (u :: seen) u).mp hmem
      simp at this

/-- **C8**: `clean_links` removes self-links and duplicates keeping the
first-seen order: it refines the spec-side first-seen deduplication of the
non-self urls; the survivors are exactly the non-self urls, without
duplicates; and the literal spec scenario `[P, Q, Q, R] ↦ [Q, R]` holds. -/
theorem C8_clean_links :
    (∀ (links : List (List α)) (urls : List α) (url : α),
        links.map List.head? = urls.map some →
        clean_links links url = some (specCleanLinks urls url)) ∧
    (∀ (urls : List α) (url x : α),
        x ∈ specCleanLinks urls url ↔ x ∈ urls ∧ x ≠ url) ∧
    (∀ (urls : List α) (url : α), (specCleanLinks urls url).Nodup) ∧
    clean_links [[0], [1], [1], [2]] (0 : ℕ) = some [1, 2] := by
  refine ⟨fun links urls url h => ?_, fun urls url x => ?_,
    fun urls url => nodup_dedupFirstSeen _ _, by decide⟩
  · rw [clean_links, cleanLinksLoop_spec url links urls [] h]
    rw [List.nil_append]
    rw [cleanAux_eq_dedup url urls [] [] (fun x => Iff.rfl)]
    rfl
  · rw [specCleanLinks, mem_dedupFirstSeen]
    simp [List.mem_filter]

/-- Witness for C8: entries `[[P], [Q], [Q], [R]]` with page url `P`
(numbered 0, 1, 2) produce exactly the spec-side result. -/
theorem C8_clean_links_witness :
    clean_links [[0], [1], [1], [2]] (0 : ℕ) =
      some (specCleanLinks [0, 1, 1, 2] 0) :=
  (C8_clean_links (α := ℕ)).1 [[0], [1], [1], [2]] [0, 1, 1, 2] 0 (by decide)

/-! ### `BitArraySeenURLTester` (`src/repo/crawler/seen.py`, lines 96-143)

State: the fixed capacity and the bit vector (`bitarray(capacity)` followed
by `setall(0)`), modelled as a list of booleans.  Python docids are ints
(`ℤ`); the range check precedes any mutation, so a failed call leaves the
object unchanged — the model returns the old state beside the error.
Error messages are condensed to the exception class name. -/

structure BitArraySeen where
  capacity : ℕ
  seen_urls : List Bool
  deriving DecidableEq

/-- `BitArraySeenURLTester.__init__`: all `capacity` bits zero. -/
def bitarray_new (capacity : ℕ) : BitArraySeen :=
  { capacity := capacity, seen_urls := List.replicate capacity false }

/-- `BitArraySeenURLTester.is_seen`: `IndexError` out of range, else the
bit. -/
def bitarray_is_seen (s : BitArraySeen) (docid : ℤ) : Except String Bool :=
  if (s.capacity : ℤ) ≤ docid ∨ docid < 0 then Except.error "IndexError"
  else Except.ok (s.seen_urls.getD docid.toNat false)

/-- `BitArraySeenURLTester.mark_seen`: `IndexError` out of range (state
untouched), else set the bit. -/
def bitarray_mark_seen (s : BitArraySeen) (docid : ℤ) :
    Except String Unit × BitArraySeen :=
  if (s.capacity : ℤ) ≤ docid ∨ docid < 0 then (Except.error "IndexError", s)
  else (Except.ok (), { s with seen_urls := s.seen_urls.set docid.toNat true })

/-- `BitArraySeenURLTester.seen_count`: `self.seen_urls.count(1)`. -/
def bitarray_seen_count (s : BitArraySeen) : ℕ := s.seen_urls.count true

/-- **C9**: the bitmap SeenSet rejects negative and `≥ capacity` docids with
an index-range error on both `mark_seen` and `is_seen`, and a failed mark
returns the state unchanged (bits and count untouched); an in-range docid is
`true` under `is_seen` right after `mark_seen`; a fresh tester has all
`capacity` bits zero, so `count() = 0`. -/
theorem C9_bitmap_seen_bounds :
    (∀ (s : BitArraySeen) (d : ℤ), d < 0 ∨ (s.capacity : ℤ) ≤ d →
        bitarray_mark_seen s d = (Except.error "IndexError", s) ∧
        bitarray_is_seen s d = Except.error "IndexError" ∧
        bitarray_seen_count (bitarray_mark_seen s d).2 =
          bitarray_seen_count s) ∧
    (∀ (s : BitArraySeen) (d : ℤ), s.seen_urls.length = s.capacity →
        0 ≤ d → d < (s.capacity : ℤ) →
        bitarray_is_seen (bitarray_mark_seen s d).2 d = Except.ok true) ∧
    (∀ C : ℕ, (bitarray_new C).seen_urls = List.replicate C false ∧
        bitarray_seen_count (bitarray_new C) = 0) := by
  refine ⟨fun s d hd => ?_, fun s d hlen h0 hC => ?_, fun C => ⟨rfl, ?_⟩⟩
  · have hcond : (s.capacity : ℤ) ≤ d ∨ d < 0 := hd.symm
    refine ⟨?_, ?_, ?_⟩
    · rw [bitarray_mark_seen, if_pos hcond]
    · rw [bitarray_is_seen, if_pos hcond]
    · rw [bitarray_mark_seen, if_pos hcond]
  · have hcond : ¬((s.capacity : ℤ) ≤ d ∨ d < 0) := by omega
    rw [bitarray_mark_seen, if_neg hcond]
    have hcap : ({ s with seen_urls := s.seen_urls.set d.toNat true } :
        BitArraySeen).capacity = s.capacity := rfl
    rw [bitarray_is_seen]
    rw [if_neg (by rw [hcap]; exact hcond)]
    have hidx : d.toNat < s.seen_urls.length := by
      rw [hlen]; omega
    congr 1
    have hget : (s.seen_urls.set d.toNat true).get? d.toNat = some true := by
      rw [List.get?_set_eq]
      rw [List.get?_eq_get hidx]
      rfl
    rw [List.getD_eq_get?, hget]
    rfl
  · simp [bitarray_seen_count, bitarray_new, List.count_replicate]

/-- Witness for C9: capacity 10 (the spec's literal scenario) — marking
docno 10 fails and leaves the fresh tester unchanged, while docno 3 is
marked and then seen. -/
theorem C9_bitmap_seen_witness :
    bitarray_mark_seen (bitarray_new 10) 10 =
      (Except.error "IndexError", bitarray_new 10) ∧
    bitarray_is_seen (bitarray_mark_seen (bitarray_new 10) 3).2 3 =
      Except.ok true ∧
    bitarray_seen_count (bitarray_new 10) = 0 :=
  ⟨((C9_bitmap_seen_bounds.1 (bitarray_new 10) 10) (by decide)).1,
   (C9_bitmap_seen_bounds.2.1 (bitarray_new 10) 3 (by decide)
      (by decide) (by decide)),
   (C9_bitmap_seen_bounds.2.2 10).2⟩

/-! ### C10: seed adds ignore qscores (`frontier.py` `add`/
`add_with_max_priority`, `orchestrator.py` `populate_frontier`)

`Orchestrator.populate_frontier` (oracle mode): for every seed url, look up
its docno (`url2docno`) and skip missing ones; otherwise build a page whose
metadata carries the pre-parsed qscore when present, and call
`add(page, None)`.  Only the frontier effect is modelled here — the seen-set
marking and the seeds file are orthogonal to the enqueued priorities. -/

def populateH (u2d : α → Option ℕ) (qsc : α → Option ℚ) :
    List α → QFHeapState α → QFHeapState α
  | [], s => s
  | seed :: seeds, s =>
    match u2d seed with
    | none => populateH u2d qsc seeds s
    | some _ => populateH u2d qsc seeds (qfhAdd s ⟨seed, qsc seed⟩ none)

def populateP (u2d : α → Option ℕ) (qsc : α → Option ℚ) :
    List α → QFPQState α → Option (QFPQState α)
  | [], s => some s
  | seed :: seeds, s =>
    match u2d seed with
    | none => populateP u2d qsc seeds s
    | some _ =>
      match qfpAdd s ⟨seed, qsc seed⟩ none with
      | none => none
      | some s1 => populateP u2d qsc seeds s1

/-- **C10**: on both quality-frontier variants, `add(page, None)` enqueues
the page's URL at `MAX_PRIORITY = 1` no matter what qscore the page's
metadata carries, so the result is independent of the qscore; consequently
`populate_frontier` in oracle mode produces a frontier independent of the
pre-parsed seed qscores — every seed enters at priority 1. -/
theorem C10_seed_priority_ignores_qscore :
    (∀ (s : QFHeapState α) (u : α) (q1 q2 : Option ℚ),
        qfhAdd s ⟨u, q1⟩ none = qfhAdd s ⟨u, q2⟩ none) ∧
    (∀ (s : QFHeapState α) (u : α) (q : Option ℚ),
        (qfhAdd s ⟨u, q⟩ none).queue = (-(1 : ℚ), u) :: s.queue) ∧
    (∀ (s : QFPQState α) (u : α) (q1 q2 : Option ℚ),
        qfpAdd s ⟨u, q1⟩ none = qfpAdd s ⟨u, q2⟩ none) ∧
    (∀ (s : QFPQState α) (u : α) (q : Option ℚ),
        alookup s.q.deleted u = none →
        ∃ s1, qfpAdd s ⟨u, q⟩ none = some s1 ∧
          s1.q.queue = (-(1 : ℚ), u) :: s.q.queue) ∧
    (∀ (u2d : α → Option ℕ) (q1f q2f : α → Option ℚ) (seeds : List α)
        (s : QFHeapState α),
        populateH u2d q1f seeds s = populateH u2d q2f seeds s) ∧
    (∀ (u2d : α → Option ℕ) (q1f q2f : α → Option ℚ) (seeds : List α)
        (s : QFPQState α),
        populateP u2d q1f seeds s = populateP u2d q2f seeds s) := by
  have hH : ∀ (s : QFHeapState α) (u : α) (q1 q2 : Option ℚ),
      qfhAdd s ⟨u, q1⟩ none = qfhAdd s ⟨u, q2⟩ none := fun s u q1 q2 => rfl
  have hP : ∀ (s : QFPQState α) (u : α) (q1 q2 : Option ℚ),
      qfpAdd s ⟨u, q1⟩ none = qfpAdd s ⟨u, q2⟩ none := fun s u q1 q2 => rfl
  refine ⟨hH, fun s u q => rfl, hP, fun s u q hlook => ?_, ?_, ?_⟩
  · refine ⟨?_, ?_, ?_⟩
    · exact { q := { queue := (-(1 : ℚ), u) :: s.q.queue,
                     deleted := aset s.q.deleted u (-(1 : ℚ), 0),
                     num_enqueued := s.q.num_enqueued + 1,
                     num_deleted := s.q.num_deleted },
              no_priority_pages := s.no_priority_pages,
              priority_pages := s.priority_pages + 1,
              no_father_pages := s.no_father_pages + 1 }
    · simp only [qfpAdd, qfpAddMax, pqpq_put, hlook, MAX_PRIORITY]
      rfl
    · rfl
  · intro u2d q1f q2f seeds
    induction seeds with
    | nil => intro s; rfl
    | cons seed seeds ih =>
      intro s
      simp only [populateH]
      cases u2d seed with
      | none => exact ih s
      | some d => rw [hH s seed (q1f seed) (q2f seed)]; exact ih _
  · intro u2d q1f q2f seeds
    induction seeds with
    | nil => intro s; rfl
    | cons seed seeds ih =>
      intro s
      simp only [populateP]
      cases u2d seed with
      | none => exact ih s
      | some d =>
        rw [hP s seed (q1f seed) (q2f seed)]
        cases qfpAdd s ⟨seed, q2f seed⟩ none with
        | none => rfl
        | some s1 => exact ih s1

/-- Witness for C10: on an empty updating frontier, a seed carrying qscore 5
is enqueued at priority 1. -/
theorem C10_seed_priority_witness :
    ∃ s1 : QFPQState ℕ, qfpAdd qfpInit ⟨0, some 5⟩ none = some s1 ∧
      s1.q.queue = (-(1 : ℚ), 0) :: (qfpInit : QFPQState ℕ).q.queue :=
  (C10_seed_priority_ignores_qscore (α := ℕ)).2.2.2.1 qfpInit 0 (some 5) rfl

/-! ### Link-graph access layer (`src/repo/utils/utils.py`)

`navigate_to_id` / `read_offsets` / `random_read_json_gz`, over an explicit
read-only file system `FS`: a partial map from paths to raw byte strings
(both modelled as `List Char`).  gzip decompression and `json.loads` are
abstract parameters: `decomp` returns an error exactly when
`decompress_gzip_data` would raise, and `parseJson` returns `none` exactly
when `json.loads` would raise `JSONDecodeError` (the one exception
`random_read_json_gz` catches).  The utf-8 decode step is the identity in
this representation. -/

/-- A file system: path to file content, `none` when the file is missing. -/
def FS : Type := List Char → Option (List Char)

instance {ε β : Type*} [DecidableEq ε] [DecidableEq β] :
    DecidableEq (Except ε β) := fun a b =>
  match a, b with
  | Except.error x, Except.error y =>
    if h : x = y then isTrue (congrArg Except.error h)
    else isFalse fun hh => h (Except.error.inj hh)
  | Except.error _, Except.ok _ => isFalse fun hh => Except.noConfusion hh
  | Except.ok _, Except.error _ => isFalse fun hh => Except.noConfusion hh
  | Except.ok x, Except.ok y =>
    if h : x = y then isTrue (congrArg Except.ok h)
    else isFalse fun hh => h (Except.ok.inj hh)

/-- Whitespace as stripped by Python `int()`. -/
def pyWs (c : Char) : Bool :=
  c = ' ' ∨ c = '\n' ∨ c = '\t' ∨ c = '\r'

/-- Digit-string value; `none` when empty or a non-digit occurs. -/
def digitsValAux : ℕ → List Char → Option ℕ
  | acc, [] => some acc
  | acc, c :: cs =>
    if c.isDigit then digitsValAux (acc * 10 + (c.toNat - '0'.toNat)) cs
    else none

def digitsVal : List Char → Option ℕ
  | [] => none
  | l => digitsValAux 0 l

/-- Python `int(str)`: strip whitespace, optional sign, digits; `none`
models the `ValueError` on anything else. -/
def parseIntChars (s : List Char) : Option ℤ :=
  match (s.dropWhile pyWs).reverse.dropWhile pyWs |>.reverse with
  | '-' :: rest => (digitsVal rest).map (fun n => -(n : ℤ))
  | '+' :: rest => (digitsVal rest).map (fun n => (n : ℤ))
  | t => (digitsVal t).map (fun n => (n : ℤ))

/-- Python `str.split('-')` (keeps empty pieces). -/
def splitDashes : List Char → List (List Char)
  | [] => [[]]
  | c :: cs =>
    match splitDashes cs with
    | [] => if c = '-' then [[], [c]] else [[c]]
    | h :: t => if c = '-' then [] :: h :: t else (c :: h) :: t

/-- `get_parts(id)`: unpack `_, subdir, file_seq, doc_seq = id.split('-')`
and `int(doc_seq)`; `none` models the uncaught `ValueError` on a wrong
number of parts or a non-numeric `doc_seq`. -/
def get_parts (id : List Char) : Option (List Char × List Char × ℤ) :=
  match splitDashes id with
  | [_, subdir, file_seq, doc_seq] =>
    (parseIntChars doc_seq).map (fun n => (subdir, file_seq, n))
  | _ => none

/-- `os.path.join(dir_path, subdir, f"{subdir}-{file_seq}")`. -/
def filePrefOf (dir sub fseq : List Char) : List Char :=
  dir ++ ('/' :: sub) ++ ('/' :: sub) ++ ('-' :: fseq)

def offsetsPathOf (dir sub fseq : List Char) : List Char :=
  filePrefOf dir sub fseq ++ ".offset".toList

def shardPathOf (dir sub fseq : List Char) : List Char :=
  filePrefOf dir sub fseq ++ ".json.gz".toList

/-- `read_offsets(file_path, i)`: absolute seek to `i * 11`, read a 10-digit
offset, then `int(f.read(10)) if f.read(1) else None`.  Errors: missing
file (`FileNotFoundError`), negative seek or failed `int()`
(`ValueError`). -/
def read_offsets (fs : FS) (path : List Char) (i : ℤ) :
    Except String (ℤ × Option ℤ) :=
  match fs path with
  | none => Except.error "FileNotFoundError"
  | some content =>
    if i * 11 < 0 then Except.error "ValueError"
    else
      match parseIntChars ((content.drop (i * 11).toNat).take 10) with
      | none => Except.error "ValueError"
      | some start =>
        if (content.drop ((i * 11).toNat + 10)).take 1 = [] then
          Except.ok (start, none)
        else
          match parseIntChars ((content.drop ((i * 11).toNat + 11)).take 10) with
          | none => Except.error "ValueError"
          | some endv => Except.ok (start, some endv)

/-- `gz_file.read(read_length)` after `seek(start)`: `None` or `-1` read to
EOF, other negative lengths raise `ValueError`, else read that many
bytes. -/
def fileReadFrom (content : List Char) (start : ℕ) :
    Option ℤ → Except String (List Char)
  | none => Except.ok (content.drop start)
  | some n =>
    if n < -1 then Except.error "ValueError"
    else if n = -1 then Except.ok (content.drop start)
    else Except.ok ((content.drop start).take n.toNat)

/-- `random_read_json_gz(file_path, start_offset, end_offset)`: open
(missing file → `FileNotFoundError`), seek (negative → `ValueError`), read
`end - start` bytes (or to EOF), decompress (errors propagate), decode,
`json.loads` with `JSONDecodeError` caught and turned into `None`. -/
def random_read_json_gz {J : Type*} (fs : FS)
    (decomp : List Char → Except String (List Char))
    (parseJson : List Char → Option J) (path : List Char)
    (startOff : ℤ) (endOff : Option ℤ) : Except String (Option J) :=
  match fs path with
  | none => Except.error "FileNotFoundError"
  | some content =>
    if startOff < 0 then Except.error "ValueError"
    else
      match fileReadFrom content startOff.toNat
          (endOff.map (fun e => e - startOff)) with
      | Except.error e => Except.error e
      | Except.ok data =>
        match decomp data with
        | Except.error e => Except.error e
        | Except.ok line => Except.ok (parseJson line)

/-- `navigate_to_id(dir_path, id)`: split the docid, read the two offsets
(any exception re-raised as `RuntimeError`), then the shard record (again
re-raised as `RuntimeError`).  `get_parts` runs outside both `try` blocks,
so its `ValueError` propagates unwrapped. -/
def navigate_to_id {J : Type*} (fs : FS)
    (decomp : List Char → Except String (List Char))
    (parseJson : List Char → Option J) (dirPath : List Char)
    (id : List Char) : Except String (Option J) :=
  match get_parts id with
  | none => Except.error "ValueError"
  | some (subdir, file_seq, doc_seq) =>
    match read_offsets fs (offsetsPathOf dirPath subdir file_seq) doc_seq with
    | Except.error e => Except.error ("RuntimeError: " ++ e)
    | Except.ok (start_offset, end_offset) =>
      match random_read_json_gz fs decomp parseJson
          (shardPathOf dirPath subdir file_seq) start_offset end_offset with
      | Except.error e => Except.error ("RuntimeError: " ++ e)
      | Except.ok r => Except.ok r

/-- **C6 counterexample**: with no files at all (both the shard and its
offset sidecar missing), `navigate_to_id` does not return the claimed
not-found `None`: it fails fatally with a `RuntimeError` wrapping the
`FileNotFoundError`. -/
theorem C6_counterexample_missing_file_raises :
    navigate_to_id (J := Unit) (fun _ => none) Except.ok (fun _ => none)
        "links".toList "cw-en00-00-0".toList =
      Except.error "RuntimeError: FileNotFoundError" ∧
    navigate_to_id (J := Unit) (fun _ => none) Except.ok (fun _ => none)
        "links".toList "cw-en00-00-0".toList ≠ Except.ok none := by
  refine ⟨by decide, by decide⟩

/-- **C6 (amended)**: `navigate_to_id` returns the not-found `None` exactly
in the malformed-JSON case (files present, offsets and read fine, parse
fails); a missing offset or shard file instead raises — the call fails
fatally with `RuntimeError: FileNotFoundError`. -/
theorem C6_amended_read_failure_modes {J : Type*} :
    (∀ (fs : FS) (decomp : List Char → Except String (List Char))
        (parseJson : List Char → Option J) (dir id sub fseq : List Char)
        (dseq : ℤ),
        get_parts id = some (sub, fseq, dseq) →
        fs (offsetsPathOf dir sub fseq) = none →
        navigate_to_id fs decomp parseJson dir id =
          Except.error "RuntimeError: FileNotFoundError") ∧
    (∀ (fs : FS) (decomp : List Char → Except String (List Char))
        (parseJson : List Char → Option J) (dir id sub fseq : List Char)
        (dseq s0 : ℤ) (e0 : Option ℤ),
        get_parts id = some (sub, fseq, dseq) →
        read_offsets fs (offsetsPathOf dir sub fseq) dseq =
          Except.ok (s0, e0) →
        fs (shardPathOf dir sub fseq) = none →
        navigate_to_id fs decomp parseJson dir id =
          Except.error "RuntimeError: FileNotFoundError") ∧
    (∀ (fs : FS) (decomp : List Char → Except String (List Char))
        (parseJson : List Char → Option J) (dir id sub fseq : List Char)
        (dseq s0 : ℤ) (e0 : Option ℤ) (content data line : List Char),
        get_parts id = some (sub, fseq, dseq) →
        read_offsets fs (offsetsPathOf dir sub fseq) dseq =
          Except.ok (s0, e0) →
        fs (shardPathOf dir sub fseq) = some content →
        ¬ s0 < 0 →
        fileReadFrom content s0.toNat (e0.map (fun e => e - s0)) =
          Except.ok data →
        decomp data = Except.ok line →
        parseJson line = none →
        navigate_to_id fs decomp parseJson dir id = Except.ok none) := by
  refine ⟨fun fs decomp parseJson dir id sub fseq dseq h1 h2 => ?_,
    fun fs decomp parseJson dir id sub fseq dseq s0 e0 h1 h2 h3 => ?_,
    fun fs decomp parseJson dir id sub fseq dseq s0 e0 content data line
      h1 h2 h3 h4 h5 h6 h7 => ?_⟩
  · simp only [navigate_to_id, h1, read_offsets, h2]
    rfl
  · simp only [navigate_to_id, h1, h2, random_read_json_gz, h3]
    rfl
  · simp only [navigate_to_id, h1, h2, random_read_json_gz, h3, if_neg h4,
      h5, h6, h7]

/-- The concrete file system for the C6 witness: one offset record pair
(`0` and `4`) and a four-byte shard record. -/
def c6fs : FS := fun p =>
  if p = offsetsPathOf "links".toList "en00".toList "00".toList then
    some "0000000000\n0000000004\n".toList
  else if p = shardPathOf "links".toList "en00".toList "00".toList then
    some "abcd".toList
  else none

/-- Witness for the amended C6: both files present, offsets readable, but
the record does not parse as JSON — the reader returns `None`. -/
theorem C6_amended_witness :
    navigate_to_id (J := Unit) c6fs Except.ok (fun _ => none)
        "links".toList "cw-en00-00-0".toList = Except.ok none :=
  C6_amended_read_failure_modes.2.2 c6fs Except.ok (fun _ => none)
    "links".toList "cw-en00-00-0".toList "en00".toList "00".toList
    0 0 (some 4) "abcd".toList "abcd".toList "abcd".toList
    (by decide) (by decide) (by decide) (by decide) (by decide) rfl rfl

/-! ### DownloadLog (`src/repo/crawler/fetcher.py` writer,
`src/repo/utils/datasetIR.py` reader)

Writer state: the in-memory buffer `self.downloaded`, the persisted count
`self.num_stored`, and the chunk files keyed by their numeric suffix
(`np.save` to `f"{path}_{checkpoint_id}"`, read back as
`f"{path}_{k}.npy"`).  `int((len + stored) / S)` is Python float division
truncated, i.e. floor division for these non-negative values — `ℕ`
division here.  `S` is the `save_every_n_pages` configuration value. -/

structure FetcherState where
  downloaded : List ℕ
  num_stored : ℕ
  files : ℕ → Option (List ℕ)

def fetcherInit : FetcherState :=
  { downloaded := [], num_stored := 0, files := fun _ => none }

/-- `Fetcher.store` (after the url → docno lookup). -/
def fetchStore (s : FetcherState) (d : ℕ) : FetcherState :=
  { s with downloaded := s.downloaded ++ [d] }

/-- `Fetcher.write_downloads_to_file(last)`: save the buffer under
checkpoint id `(len(downloaded) + num_stored) / S`, plus 1 on the final
flush. -/
def write_downloads_to_file (S : ℕ) (s : FetcherState) (last : Bool) :
    FetcherState :=
  { s with files := fun k =>
      if k = (s.downloaded.length + s.num_stored) / S +
          (if last then 1 else 0) then some s.downloaded
      else s.files k }

/-- `Fetcher.checkpoint`: write, then move the buffer into the persisted
count and clear it. -/
def fetchCheckpoint (S : ℕ) (s : FetcherState) : FetcherState :=
  let s1 := write_downloads_to_file S s false
  { s1 with num_stored := s1.num_stored + s1.downloaded.length,
            downloaded := [] }

/-- Writer-side operations the orchestrator performs between the run start
and the final flush. -/
inductive LogOp where
  | store (d : ℕ)
  | checkpoint

def execLog (S : ℕ) : FetcherState → List LogOp → FetcherState
  | s, [] => s
  | s, LogOp.store d :: ops => execLog S (fetchStore s d) ops
  | s, LogOp.checkpoint :: ops => execLog S (fetchCheckpoint S s) ops

/-- The `(checkpoint_id, chunk)` pairs written during a run that ends with
the `write_downloads_to_file(last=True)` flush, in write order. -/
def flushList (S : ℕ) : FetcherState → List LogOp → List (ℕ × List ℕ)
  | s, [] => [((s.downloaded.length + s.num_stored) / S + 1, s.downloaded)]
  | s, LogOp.store d :: ops => flushList S (fetchStore s d) ops
  | s, LogOp.checkpoint :: ops =>
    ((s.downloaded.length + s.num_stored) / S, s.downloaded) ::
      flushList S (fetchCheckpoint S s) ops

/-- The docnos appended by the trace, in order. -/
def storeSeq : List LogOp → List ℕ
  | [] => []
  | LogOp.store d :: ops => d :: storeSeq ops
  | LogOp.checkpoint :: ops => storeSeq ops

/-- The chunk visible under suffix `k` after a sequence of writes: the last
write to `k` wins. -/
def assocLast : List (ℕ × List ℕ) → ℕ → Option (List ℕ)
  | [], _ => none
  | (i, c) :: rest, k =>
    match assocLast rest k with
    | some c2 => some c2
    | none => if k = i then some c else none

/-- The `while True` loop of `load_downloaded_list`: read chunk files in
ascending suffix order starting at 1, stop at the first missing suffix or
once the optional limit is reached (`if limit and len >= limit`; a limit of
0 is falsy).  Fuelled: the callers below always pass enough fuel. -/
def loadChunksAux (files : ℕ → Option (List ℕ)) (limit : Option ℕ) :
    ℕ → ℕ → List ℕ → List ℕ
  | 0, _, acc => acc
  | fuel + 1, idx, acc =>
    match files idx with
    | none => acc
    | some chunk =>
      match limit with
      | some l =>
        if l ≠ 0 ∧ l ≤ (acc ++ chunk).length then (acc ++ chunk).take l
        else loadChunksAux files limit fuel (idx + 1) (acc ++ chunk)
      | none => loadChunksAux files limit fuel (idx + 1) (acc ++ chunk)

/-- `load_downloaded_list(downloaded_dir, limit)`. -/
def load_downloaded_list (files : ℕ → Option (List ℕ)) (limit : Option ℕ)
    (fuel : ℕ) : List ℕ :=
  loadChunksAux files limit fuel 1 []

theorem execLog_files (S : ℕ) :
    ∀ (ops : List LogOp) (s : FetcherState) (k : ℕ),
      (write_downloads_to_file S (execLog S s ops) true).files k =
        (match assocLast (flushList S s ops) k with
          | some c => some c
          | none => s.files k) := by
  intro ops
  induction ops with
  | nil =>
    intro s k
    simp only [execLog, flushList, write_downloads_to_file, assocLast]
    by_cases hk : k = (s.downloaded.length + s.num_stored) / S + 1
    · rw [if_pos (by simpa using hk), if_pos hk]
    · rw [if_neg (by simpa using hk), if_neg hk]
  | cons op ops ih =>
    intro s k
    cases op with
    | store d => simp only [execLog, flushList]; exact ih (fetchStore s d) k
    | checkpoint =>
      simp only [execLog, flushList]
      rw [ih (fetchCheckpoint S s) k]
      simp only [assocLast]
      cases assocLast (flushList S (fetchCheckpoint S s) ops) k with
      | some c2 => rfl
      | none =>
        simp only [fetchCheckpoint, write_downloads_to_file]
        by_cases hk : k = (s.downloaded.length + s.num_stored) / S
        · rw [if_pos (by simpa using hk), if_pos hk]
        · rw [if_neg (by simpa using hk), if_neg hk]

/-- Concatenation of the chunk contents, in order. -/
def chunksJoin : List (List ℕ) → List ℕ
  | [] => []
  | c :: cs => c ++ chunksJoin cs

theorem chunksJoin_cons (c : List ℕ) (cs : List (List ℕ)) :
    chunksJoin (c :: cs) = c ++ chunksJoin cs := rfl

theorem flushList_join (S : ℕ) :
    ∀ (ops : List LogOp) (s : FetcherState),
      chunksJoin ((flushList S s ops).map Prod.snd) =
        s.downloaded ++ storeSeq ops := by
  intro ops
  induction ops with
  | nil => intro s; simp [flushList, storeSeq, chunksJoin]
  | cons op ops ih =>
    intro s
    cases op with
    | store d =>
      simp only [flushList, storeSeq]
      rw [ih (fetchStore s d)]
      simp [fetchStore]
    | checkpoint =>
      simp only [flushList, storeSeq, List.map_cons, chunksJoin_cons]
      rw [ih (fetchCheckpoint S s)]
      simp [fetchCheckpoint, write_downloads_to_file]

theorem assocLast_range' :
    ∀ (fl : List (ℕ × List ℕ)) (i k : ℕ),
      fl.map Prod.fst = List.range' i fl.length →
      assocLast fl k =
        (if i ≤ k ∧ k < i + fl.length then (fl.map Prod.snd).get? (k - i)
         else none) := by
  intro fl
  induction fl with
  | nil => intro i k _; simp [assocLast]
  | cons p rest ih =>
    obtain ⟨j, c⟩ := p
    intro i k hmap
    simp only [List.map_cons, List.length_cons] at hmap
    rw [show List.range' i (rest.length + 1) =
      i :: List.range' (i + 1) rest.length from rfl] at hmap
    rw [List.cons.injEq] at hmap
    obtain ⟨rfl, hrest⟩ := hmap
    simp only [assocLast]
    rw [ih (j + 1) k hrest]
    by_cases hin : j + 1 ≤ k ∧ k < j + 1 + rest.length
    · have hidx : k - (j + 1) < (rest.map Prod.snd).length := by
        simp only [List.length_map]; omega
      rw [if_pos hin, List.get?_eq_get hidx]
      simp only []
      rw [if_pos (show j ≤ k ∧ k < j + ((j, c) :: rest).length by
        simp only [List.length_cons]; omega)]
      rw [show k - j = (k - (j + 1)) + 1 from by omega]
      simp only [List.map_cons]
      rw [show (c :: rest.map Prod.snd).get? ((k - (j + 1)) + 1) =
        (rest.map Prod.snd).get? (k - (j + 1)) from rfl]
      rw [List.get?_eq_get hidx]
    · rw [if_neg hin]
      simp only []
      by_cases hk : k = j
      · subst hk
        rw [if_pos rfl]
        rw [if_pos (show k ≤ k ∧ k < k + ((k, c) :: rest).length by
          simp only [List.length_cons]; omega)]
        rw [show k - k = 0 from by omega]
        rfl
      · rw [if_neg hk]
        rw [if_neg (show ¬(j ≤ k ∧ k < j + ((j, c) :: rest).length) by
          simp only [List.length_cons]; omega)]

theorem loadChunksAux_spec (chunks : List (List ℕ))
    (files : ℕ → Option (List ℕ))
    (hfiles : ∀ k, files k =
      if 1 ≤ k ∧ k < 1 + chunks.length then chunks.get? (k - 1) else none) :
    ∀ (fuel idx : ℕ) (acc : List ℕ), 1 ≤ idx →
      chunks.length + 2 ≤ fuel + idx →
      loadChunksAux files none fuel idx acc =
        acc ++ chunksJoin (chunks.drop (idx - 1)) := by
  intro fuel
  induction fuel with
  | zero =>
    intro idx acc h1 h2
    rw [List.drop_eq_nil_of_le (show chunks.length ≤ idx - 1 by omega)]
    simp [loadChunksAux, chunksJoin]
  | succ fuel ih =>
    intro idx acc h1 h2
    simp only [loadChunksAux]
    rw [hfiles idx]
    by_cases hin : idx - 1 < chunks.length
    · rw [if_pos ⟨h1, by omega⟩]
      rw [List.get?_eq_get hin]
      simp only []
      rw [ih (idx + 1) (acc ++ chunks.get ⟨idx - 1, hin⟩) (by omega)
        (by omega)]
      rw [show idx + 1 - 1 = idx from by omega]
      have hdrop : chunks.drop (idx - 1) =
          chunks.get ⟨idx - 1, hin⟩ :: chunks.drop idx := by
        rw [List.drop_eq_get_cons hin]
        rw [show idx - 1 + 1 = idx from by omega]
      rw [hdrop, chunksJoin_cons, List.append_assoc]
    · rw [if_neg (by omega)]
      simp only []
      rw [List.drop_eq_nil_of_le (by omega)]
      simp [chunksJoin]

/-- **C7 counterexample**: the claim fails for checkpoints that are not
aligned to `save_every_n_pages` multiples: with `S = 10`, storing one docno
and checkpointing writes the chunk under suffix `0`
(`int(1/10) = 0`), the final flush writes an empty chunk under suffix `1`,
and the reader — which starts at suffix 1 — returns `[]` instead of the
stored `[7]`. -/
theorem C7_counterexample_misaligned_checkpoint :
    load_downloaded_list
        (write_downloads_to_file 10
          (execLog 10 fetcherInit [LogOp.store 7, LogOp.checkpoint]) true).files
        none 3 = [] ∧
    storeSeq [LogOp.store 7, LogOp.checkpoint] = [7] ∧
    ([] : List ℕ) ≠ [7] := by
  refine ⟨rfl, rfl, by decide⟩

/-- **C7 (amended)**: the DownloadLog round-trip holds whenever the
checkpoint ids actually written form the consecutive sequence `1, …, K` in
flush order (as they do under the orchestrator's aligned
`save_every_n_pages` schedule): then reading the chunk files back in
ascending suffix order from 1, stopping at the first missing suffix, with
no record-count limit, returns exactly the appended docnos in order. -/
theorem C7_roundtrip_aligned (S : ℕ) (ops : List LogOp)
    (halign : (flushList S fetcherInit ops).map Prod.fst =
      List.range' 1 (flushList S fetcherInit ops).length) :
    load_downloaded_list
        (write_downloads_to_file S (execLog S fetcherInit ops) true).files
        none ((flushList S fetcherInit ops).length + 1) = storeSeq ops := by
  have hlen : ((flushList S fetcherInit ops).map Prod.snd).length =
      (flushList S fetcherInit ops).length := by simp
  have hfiles : ∀ k,
      (write_downloads_to_file S (execLog S fetcherInit ops) true).files k =
        if 1 ≤ k ∧ k < 1 + ((flushList S fetcherInit ops).map Prod.snd).length
        then ((flushList S fetcherInit ops).map Prod.snd).get? (k - 1)
        else none := by
    intro k
    rw [execLog_files S ops fetcherInit k]
    rw [assocLast_range' (flushList S fetcherInit ops) 1 k halign]
    by_cases hin : 1 ≤ k ∧ k < 1 + (flushList S fetcherInit ops).length
    · have hidx :
          k - 1 < ((flushList S fetcherInit ops).map Prod.snd).length := by
        rw [hlen]; omega
      rw [if_pos hin, if_pos (by rw [hlen]; exact hin)]
      rw [List.get?_eq_get hidx]
    · rw [if_neg hin, if_neg (by rw [hlen]; exact hin)]
      rfl
  rw [load_downloaded_list]
  rw [loadChunksAux_spec ((flushList S fetcherInit ops).map Prod.snd) _
    hfiles ((flushList S fetcherInit ops).length + 1) 1 [] le_rfl
    (by simp only [List.length_map]; omega)]
  simp only [Nat.sub_self, List.drop_zero, List.nil_append]
  rw [flushList_join]
  rfl

/-- Witness for the amended C7: `S = 2`, two stores, an aligned checkpoint
(id `⌊2/2⌋ = 1`), one more store and the final flush (id `⌊3/2⌋+1 = 2`):
the reader returns `[5, 6, 7]`. -/
theorem C7_roundtrip_witness :
    load_downloaded_list
        (write_downloads_to_file 2
          (execLog 2 fetcherInit
            [LogOp.store 5, LogOp.store 6, LogOp.checkpoint, LogOp.store 7])
          true).files none 3 =
      storeSeq [LogOp.store 5, LogOp.store 6, LogOp.checkpoint,
        LogOp.store 7] :=
  C7_roundtrip_aligned 2
    [LogOp.store 5, LogOp.store 6, LogOp.checkpoint, LogOp.store 7]
    (by decide)

end QualityCrawling
